import Mathlib

/-!
Verification of the time-series regularization pipeline and surrounding
logic of the anomaly-detection dashboard (src/anomaly_detection.py and
src/app.py).

Modelling conventions (shallow embedding):
* A raw record is a `Row V`: an entity id (`unique_id` column), a calendar
  day (`ds`, modelled as an integer day index, time-of-day already
  truncated by the day-level grouping), and a value (`y`).  The value type
  `V` is kept polymorphic; the Python code computes with floats, for which
  the exact rational numbers `ℚ` are the standard exact model, and all
  theorems below hold for any additive monoid, in particular for `ℚ`.
* `pandas` dataframes become lists of rows; `groupby(...).agg(sum)`,
  `resample('D').asfreq()`, `merge`, `sort_values` and `fillna(0)` are
  translated operation by operation.
* Fallible pandas operations (`pd.concat([])`, `pd.date_range` on `NaT`)
  are modelled with `Except String`.
-/

namespace Anomaly

/-! ## Entity-id ordering

Python compares strings lexicographically by code point; `pandas`
`sort_values` / sorted `groupby` keys use that order.  Mathlib's `String`
order does not reduce in the kernel, so we define a computable
lexicographic comparison on the underlying character lists. -/

def lexLt : List Char → List Char → Bool
  | [], [] => false
  | [], _ :: _ => true
  | _ :: _, [] => false
  | a :: as, b :: bs => if a < b then true else if b < a then false else lexLt as bs

def strLtB (a b : String) : Bool := lexLt a.data b.data

theorem lexLt_irrefl (l : List Char) : lexLt l l = false := by
  induction l with
  | nil => rfl
  | cons a as ih => simp [lexLt, ih]

theorem lexLt_trans {a b c : List Char} (hab : lexLt a b = true)
    (hbc : lexLt b c = true) : lexLt a c = true := by
  induction a generalizing b c with
  | nil =>
    cases b with
    | nil => simp [lexLt] at hab
    | cons y ys =>
      cases c with
      | nil => simp [lexLt] at hbc
      | cons z zs => simp [lexLt]
  | cons x xs ih =>
    cases b with
    | nil => simp [lexLt] at hab
    | cons y ys =>
      cases c with
      | nil => simp [lexLt] at hbc
      | cons z zs =>
        simp only [lexLt] at hab hbc ⊢
        rcases lt_trichotomy x y with hxy | hxy | hxy
        · rcases lt_trichotomy y z with hyz | hyz | hyz
          · simp [lt_trans hxy hyz]
          · subst hyz; simp [hxy]
          · rw [if_neg (asymm hyz), if_pos hyz] at hbc; exact absurd hbc (by simp)
        · subst hxy
          rw [if_neg (lt_irrefl x), if_neg (lt_irrefl x)] at hab
          rcases lt_trichotomy x z with hxz | hxz | hxz
          · simp [hxz]
          · subst hxz
            rw [if_neg (lt_irrefl x), if_neg (lt_irrefl x)] at hbc
            simp only [if_neg (lt_irrefl x)]
            exact ih hab hbc
          · rw [if_neg (asymm hxz), if_pos hxz] at hbc; exact absurd hbc (by simp)
        · rw [if_neg (asymm hxy), if_pos hxy] at hab; exact absurd hab (by simp)

theorem lexLt_eq_of_not {a b : List Char} (hab : lexLt a b = false)
    (hba : lexLt b a = false) : a = b := by
  induction a generalizing b with
  | nil =>
    cases b with
    | nil => rfl
    | cons y ys => simp [lexLt] at hab
  | cons x xs ih =>
    cases b with
    | nil => simp [lexLt] at hba
    | cons y ys =>
      simp only [lexLt] at hab hba
      rcases lt_trichotomy x y with hxy | hxy | hxy
      · rw [if_pos hxy] at hab; exact absurd hab (by simp)
      · subst hxy
        rw [if_neg (lt_irrefl x), if_neg (lt_irrefl x)] at hab hba
        rw [ih hab hba]
      · rw [if_neg (asymm hxy), if_pos hxy] at hba; exact absurd hba (by simp)

theorem strLtB_irrefl (s : String) : strLtB s s = false := lexLt_irrefl _

theorem strLtB_trans {a b c : String} (hab : strLtB a b = true)
    (hbc : strLtB b c = true) : strLtB a c = true := lexLt_trans hab hbc

theorem strLtB_eq_of_not {a b : String} (hab : strLtB a b = false)
    (hba : strLtB b a = false) : a = b := by
  cases a with
  | mk da =>
    cases b with
    | mk db => exact congrArg String.mk (lexLt_eq_of_not hab hba)

theorem strLtB_asymm {a b : String} (hab : strLtB a b = true) :
    strLtB b a = false := by
  cases h : strLtB b a with
  | false => rfl
  | true => exact absurd (strLtB_irrefl a) (by simp [strLtB_trans hab h])

/-! ## Order on (entity id, day) keys -/

abbrev Key := String × Int

def pkLe (a b : Key) : Prop := strLtB a.1 b.1 = true ∨ (a.1 = b.1 ∧ a.2 ≤ b.2)

def pkLt (a b : Key) : Prop := strLtB a.1 b.1 = true ∨ (a.1 = b.1 ∧ a.2 < b.2)

instance : DecidableRel pkLe := fun a b => by unfold pkLe; infer_instance

instance : DecidableRel pkLt := fun a b => by unfold pkLt; infer_instance

theorem pkLt.le {a b : Key} (h : pkLt a b) : pkLe a b := by
  rcases h with h | ⟨h1, h2⟩
  · exact Or.inl h
  · exact Or.inr ⟨h1, le_of_lt h2⟩

theorem pkLt_irrefl (a : Key) : ¬ pkLt a a := by
  rintro (h | ⟨_, h2⟩)
  · rw [strLtB_irrefl] at h; exact absurd h (by simp)
  · exact lt_irrefl _ h2

theorem pkLt_trans {a b c : Key} (hab : pkLt a b) (hbc : pkLt b c) : pkLt a c := by
  rcases hab with h | ⟨h1, h2⟩
  · rcases hbc with h' | ⟨h1', _⟩
    · exact Or.inl (strLtB_trans h h')
    · exact Or.inl (h1' ▸ h)
  · rcases hbc with h' | ⟨h1', h2'⟩
    · exact Or.inl (h1 ▸ h')
    · exact Or.inr ⟨h1.trans h1', h2.trans h2'⟩

theorem pkLe_trans {a b c : Key} (hab : pkLe a b) (hbc : pkLe b c) : pkLe a c := by
  rcases hab with h | ⟨h1, h2⟩
  · rcases hbc with h' | ⟨h1', _⟩
    · exact Or.inl (strLtB_trans h h')
    · exact Or.inl (h1' ▸ h)
  · rcases hbc with h' | ⟨h1', h2'⟩
    · exact Or.inl (h1 ▸ h')
    · exact Or.inr ⟨h1.trans h1', h2.trans h2'⟩

theorem pkLe_total (a b : Key) : pkLe a b ∨ pkLe b a := by
  cases hab : strLtB a.1 b.1 with
  | true => exact Or.inl (Or.inl hab)
  | false =>
    cases hba : strLtB b.1 a.1 with
    | true => exact Or.inr (Or.inl hba)
    | false =>
      have he : a.1 = b.1 := strLtB_eq_of_not hab hba
      rcases le_total a.2 b.2 with h | h
      · exact Or.inl (Or.inr ⟨he, h⟩)
      · exact Or.inr (Or.inr ⟨he.symm, h⟩)

theorem pkLe_of_ne {a b : Key} (hle : pkLe a b) (hne : a ≠ b) : pkLt a b := by
  rcases hle with h | ⟨h1, h2⟩
  · exact Or.inl h
  · refine Or.inr ⟨h1, lt_of_le_of_ne h2 ?_⟩
    intro h2'
    exact hne (Prod.ext h1 h2')

instance : IsTrans Key pkLe := ⟨fun _ _ _ => pkLe_trans⟩
instance : IsTotal Key pkLe := ⟨pkLe_total⟩
instance : IsTrans Key pkLt := ⟨fun _ _ _ => pkLt_trans⟩

/-! ## Data model

One tabular record after column standardization (`ds` → day, `y` → value,
`unique_id` → entity id); both scripts rename their input columns to this
schema before processing. -/

structure Row (V : Type) where
  uid : String
  ds  : Int
  y   : V
deriving DecidableEq, Repr

def Row.key {V : Type} (r : Row V) : Key := (r.uid, r.ds)

def rowLe {V : Type} (a b : Row V) : Prop := pkLe a.key b.key

def rowLt {V : Type} (a b : Row V) : Prop := pkLt a.key b.key

instance {V : Type} : DecidableRel (rowLe (V := V)) := fun a b => by
  unfold rowLe; infer_instance

instance {V : Type} : DecidableRel (rowLt (V := V)) := fun a b => by
  unfold rowLt; infer_instance

instance {V : Type} : IsTrans (Row V) rowLe := ⟨fun _ _ _ => pkLe_trans⟩
instance {V : Type} : IsTotal (Row V) rowLe := ⟨fun a b => pkLe_total a.key b.key⟩
instance {V : Type} : IsTrans (Row V) rowLt := ⟨fun _ _ _ => pkLt_trans⟩

/-! ## min / max of a list of days

`pandas` `Series.max()` / the implicit min/max of `resample('D')`; `none`
models `NaT` on an empty series. -/

def listMax : List Int → Option Int
  | [] => none
  | x :: xs =>
    match listMax xs with
    | none => some x
    | some m => some (max x m)

def listMin : List Int → Option Int
  | [] => none
  | x :: xs =>
    match listMin xs with
    | none => some x
    | some m => some (min x m)

theorem listMax_eq_none_iff {l : List Int} : listMax l = none ↔ l = [] := by
  cases l with
  | nil => simp [listMax]
  | cons a as =>
    simp only [listMax]
    cases listMax as <;> simp

theorem listMin_eq_none_iff {l : List Int} : listMin l = none ↔ l = [] := by
  cases l with
  | nil => simp [listMin]
  | cons a as =>
    simp only [listMin]
    cases listMin as <;> simp

theorem listMax_eq_some_iff {l : List Int} {m : Int} :
    listMax l = some m ↔ m ∈ l ∧ ∀ x ∈ l, x ≤ m := by
  induction l generalizing m with
  | nil => simp [listMax]
  | cons a as ih =>
    simp only [listMax]
    cases has : listMax as with
    | none =>
      have hnil : as = [] := listMax_eq_none_iff.mp has
      subst hnil
      constructor
      · rintro h
        have h' : a = m := by simpa using h
        subst h'
        exact ⟨List.mem_singleton_self a, fun x hx => le_of_eq (List.mem_singleton.mp hx)⟩
      · rintro ⟨hmem, _⟩
        have h' : m = a := List.mem_singleton.mp hmem
        rw [h']
    | some m0 =>
      have h0 := (ih (m := m0)).mp has
      constructor
      · rintro h
        have hm : max a m0 = m := by simpa using h
        constructor
        · rcases max_cases a m0 with ⟨he, _⟩ | ⟨he, _⟩
          · rw [← hm, he]; exact List.mem_cons_self a as
          · rw [← hm, he]; exact List.mem_cons_of_mem a h0.1
        · intro x hx
          rcases List.mem_cons.mp hx with rfl | hx
          · exact hm ▸ le_max_left x m0
          · exact hm ▸ le_trans (h0.2 x hx) (le_max_right a m0)
      · rintro ⟨hmem, hub⟩
        have hle : max a m0 ≤ m :=
          max_le (hub a (List.mem_cons_self a as))
            (hub m0 (List.mem_cons_of_mem a h0.1))
        have hge : m ≤ max a m0 := by
          rcases List.mem_cons.mp hmem with rfl | hm'
          · exact le_max_left m m0
          · exact le_trans (h0.2 m hm') (le_max_right a m0)
        exact congrArg some (le_antisymm hle hge)

theorem listMin_eq_some_iff {l : List Int} {m : Int} :
    listMin l = some m ↔ m ∈ l ∧ ∀ x ∈ l, m ≤ x := by
  induction l generalizing m with
  | nil => simp [listMin]
  | cons a as ih =>
    simp only [listMin]
    cases has : listMin as with
    | none =>
      have hnil : as = [] := listMin_eq_none_iff.mp has
      subst hnil
      constructor
      · rintro h
        have h' : a = m := by simpa using h
        subst h'
        exact ⟨List.mem_singleton_self a, fun x hx => le_of_eq (List.mem_singleton.mp hx).symm⟩
      · rintro ⟨hmem, _⟩
        have h' : m = a := List.mem_singleton.mp hmem
        rw [h']
    | some m0 =>
      have h0 := (ih (m := m0)).mp has
      constructor
      · rintro h
        have hm : min a m0 = m := by simpa using h
        constructor
        · rcases min_cases a m0 with ⟨he, _⟩ | ⟨he, _⟩
          · rw [← hm, he]; exact List.mem_cons_self a as
          · rw [← hm, he]; exact List.mem_cons_of_mem a h0.1
        · intro x hx
          rcases List.mem_cons.mp hx with rfl | hx
          · exact hm ▸ min_le_left x m0
          · exact hm ▸ le_trans (min_le_right a m0) (h0.2 x hx)
      · rintro ⟨hmem, hub⟩
        have hle : m ≤ min a m0 :=
          le_min (hub a (List.mem_cons_self a as))
            (hub m0 (List.mem_cons_of_mem a h0.1))
        have hge : min a m0 ≤ m := by
          rcases List.mem_cons.mp hmem with rfl | hm'
          · exact min_le_left m m0
          · exact le_trans (min_le_right a m0) (h0.2 m hm')
        exact congrArg some (le_antisymm hge hle)

/-! ## Contiguous daily calendar

`pd.date_range(start, end, freq='D')` / `resample('D')`: every calendar
day from `lo` to `hi` inclusive. -/

def dayRange (lo hi : Int) : List Int :=
  (List.range (hi + 1 - lo).toNat).map (fun (i : Nat) => lo + (i : Int))

theorem mem_dayRange {lo hi d : Int} : d ∈ dayRange lo hi ↔ lo ≤ d ∧ d ≤ hi := by
  simp only [dayRange, List.mem_map, List.mem_range]
  constructor
  · rintro ⟨i, hi', rfl⟩
    omega
  · rintro ⟨h1, h2⟩
    exact ⟨(d - lo).toNat, by omega, by omega⟩

theorem length_dayRange (lo hi : Int) :
    (dayRange lo hi).length = (hi + 1 - lo).toNat := by
  rw [dayRange, List.length_map, List.length_range]

theorem dayRange_pairwise (lo hi : Int) :
    (dayRange lo hi).Pairwise (· < ·) := by
  refine List.Pairwise.map _ (fun a b h => ?_) (List.pairwise_lt_range _)
  omega

theorem listMin_dayRange {lo hi : Int} (h : lo ≤ hi) :
    listMin (dayRange lo hi) = some lo := by
  rw [listMin_eq_some_iff]
  exact ⟨mem_dayRange.mpr ⟨le_refl lo, h⟩, fun x hx => (mem_dayRange.mp hx).1⟩

theorem listMax_dayRange {lo hi : Int} (h : lo ≤ hi) :
    listMax (dayRange lo hi) = some hi := by
  rw [listMax_eq_some_iff]
  exact ⟨mem_dayRange.mpr ⟨h, le_refl hi⟩, fun x hx => (mem_dayRange.mp hx).2⟩

/-! ## Daily aggregation and regularization

Translations of:
* `src/anomaly_detection.py` lines 33-46 (`main`, steps 3): group by
  `(unique_id, day)` summing `y`, then for each entity reindex onto its
  own min-to-max daily calendar (`resample('D').asfreq()`), fill the new
  days' `y` with 0, concatenate, and sort by `(unique_id, ds)`;
* `src/app.py` lines 91-123 (`preprocess_data`): same aggregation, but
  every entity is left-joined onto one shared `pd.date_range` window
  `[max_date - 180 days, max_date]` computed from the global maximum day,
  missing `y` filled with 0, concatenated and sorted.

`pd.concat([])` raises `ValueError("No objects to concatenate")` and
`pd.date_range` on the `NaT` produced by an empty column's `max()` raises
`ValueError`; both are modelled as `Except.error`. -/

variable {V : Type}

/-- Sum of the raw `y` values of one `(entity, day)` group —
`groupby(['unique_id', ds.dt.date]).agg({'y': 'sum'})` for one key. -/
def rawSum [Zero V] [Add V] (raws : List (Row V)) (u : String) (d : Int) : V :=
  (raws.filter (fun r => r.uid == u && r.ds == d)).foldl (fun acc r => acc + r.y) 0

/-- The sorted group keys of the aggregation (pandas `groupby` sorts the
keys ascending and emits each group once). -/
def aggKeys (raws : List (Row V)) : List Key :=
  (List.insertionSort pkLe (raws.map Row.key)).dedup

/-- `groupby(['unique_id', ds.dt.date]).agg({'y': 'sum'}).reset_index()`:
one row per key, sorted by key, `y` summed within the group. -/
def aggregate [Zero V] [Add V] (raws : List (Row V)) : List (Row V) :=
  (aggKeys raws).map (fun k => ⟨k.1, k.2, rawSum raws k.1 k.2⟩)

/-- `daily_sales['unique_id'].unique()`: entity ids in order of first
appearance. -/
def entityIds (rows : List (Row V)) : List String := (rows.map Row.uid).dedup

/-- `daily_sales[daily_sales['unique_id'] == uid]`. -/
def entityRows (rows : List (Row V)) (u : String) : List (Row V) :=
  rows.filter (fun r => r.uid == u)

/-- Value attached to key `(u, d)` in an aggregated frame, if present
(the left-join/`asfreq` lookup; aggregated keys are unique, so the first
match is the only one). -/
def aggLookup (rows : List (Row V)) (u : String) (d : Int) : Option V :=
  (rows.find? (fun r => r.uid == u && r.ds == d)).map Row.y

/-- `mall_df.set_index('ds').resample('D').asfreq()` followed by
`mall_df['y'].fillna(0)`: the entity's own min-to-max daily calendar with
aggregated sums where present and 0 on the gap days.  An entity absent
from the aggregated data yields no rows (that branch is never reached by
the caller, which iterates over present ids). -/
def fullSpanSeries [Zero V] (agg : List (Row V)) (u : String) : List (Row V) :=
  match listMin ((entityRows agg u).map Row.ds), listMax ((entityRows agg u).map Row.ds) with
  | some lo, some hi =>
    (dayRange lo hi).map (fun d => ⟨u, d, (aggLookup agg u d).getD 0⟩)
  | _, _ => []

/-- `sort_values(['unique_id', 'ds'])`.  The sorted keys are pairwise
distinct in every use below, so any comparison sort returns this list. -/
def sortRows (rows : List (Row V)) : List (Row V) := List.insertionSort rowLe rows

/-- Full-span regularization, `src/anomaly_detection.py` lines 36-46:
per-entity `resample('D')` gap filling, concatenation, final sort. -/
def regularizeFullSpan [Zero V] [Add V] (raws : List (Row V)) :
    Except String (List (Row V)) :=
  let agg := aggregate raws
  let ids := entityIds agg
  if ids.isEmpty then Except.error "No objects to concatenate"
  else Except.ok (sortRows (ids.flatMap (fun u => fullSpanSeries agg u)))

/-- Fixed-window regularization, `src/app.py` lines 91-123
(`preprocess_data`): one shared master calendar
`[max_date - 180 days, max_date]` from the global maximum day, each
entity left-joined onto it (`master_df.merge(uid_data, on='ds',
how='left')`) with missing `y` filled by 0. -/
def preprocess_data [Zero V] [Add V] (raws : List (Row V)) :
    Except String (List (Row V)) :=
  match listMax (raws.map Row.ds) with
  | none => Except.error "Neither start nor end can be NaT"
  | some maxDay =>
    let master := dayRange (maxDay - 180) maxDay
    let agg := aggregate raws
    let ids := entityIds agg
    if ids.isEmpty then Except.error "No objects to concatenate"
    else Except.ok (sortRows (ids.flatMap (fun u =>
      master.map (fun d => ⟨u, d, (aggLookup agg u d).getD 0⟩))))

/-! ## Insight classification

`src/app.py` lines 352-365: spike/dip decision and magnitude for one
anomalous row, given the actual value and the bound columns. -/

inductive Direction
  | Spike
  | Dip
deriving DecidableEq, Repr

/-- `if actual > upper_bound: ... magnitude = actual / upper_bound if
upper_bound > 0 else (actual/1.0)` / `else: ... magnitude = lower_bound /
actual if actual > 0 else 0`. -/
def classifyAnomaly (actual upper lower : ℚ) : Direction × ℚ :=
  if actual > upper then
    (Direction.Spike, if upper > 0 then actual / upper else actual / 1)
  else
    (Direction.Dip, if actual > 0 then lower / actual else 0)

/-! ## Insight synthesis: candidate ordering and truncation

`src/app.py` lines 331-337 and 383-384: the anomalous rows of the joined
frame, sorted by `ds` descending; the first 6 become insight cards, and
when more than 6 exist an info banner reports `len(anomalous_data)`. -/

structure ARow (V : Type) where
  uid : String
  ds : Int
  y : V
  anomaly : Bool
deriving DecidableEq, Repr

def dsDescend {V : Type} (a b : ARow V) : Prop := b.ds ≤ a.ds

instance {V : Type} : DecidableRel (dsDescend (V := V)) := fun a b => by
  unfold dsDescend; infer_instance

instance {V : Type} : IsTrans (ARow V) dsDescend :=
  ⟨fun _ _ _ h1 h2 => le_trans h2 h1⟩

instance {V : Type} : IsTotal (ARow V) dsDescend :=
  ⟨fun a b => (le_total b.ds a.ds).imp (fun h => h) (fun h => h)⟩

/-- `merged_df[merged_df['anomaly'] == 1].sort_values('ds', ascending=False)`. -/
def anomalousData {V : Type} (rows : List (ARow V)) : List (ARow V) :=
  List.insertionSort dsDescend (rows.filter (fun r => r.anomaly))

/-- `anomalous_data.head(6)`: the rows rendered as insight cards. -/
def insightCards {V : Type} (rows : List (ARow V)) : List (ARow V) :=
  (anomalousData rows).take 6

/-- `if len(anomalous_data) > 6: st.info(f"Showing top 6 of
{len(anomalous_data)} total anomalies...")`: the count carried by the
truncation banner, `none` when no banner is shown. -/
def truncationNotice {V : Type} (rows : List (ARow V)) : Option Nat :=
  if 6 < (anomalousData rows).length then some (anomalousData rows).length else none

/-! ## Service adapters

`src/app.py` lines 147-176: both adapters filter the frame to the selected
entity ids and return an empty frame without touching the client when the
subset is empty.  The external call is abstracted as a function argument;
the boolean records whether it was issued. -/

/-- `detect_anomalies(df, level, selected_items, api_key)`. -/
def detect_anomalies {V A : Type} (service : List (Row V) → List A)
    (df : List (Row V)) (selected : List String) : List A × Bool :=
  let subset := df.filter (fun r => selected.contains r.uid)
  if subset.isEmpty then ([], false)
  else (service subset, true)

/-- `generate_forecast(df, selected_items, api_key, horizon=7)`. -/
def generate_forecast {V F : Type} (service : List (Row V) → Nat → List F)
    (df : List (Row V)) (selected : List String) (horizon : Nat := 7) :
    List F × Bool :=
  let subset := df.filter (fun r => selected.contains r.uid)
  if subset.isEmpty then ([], false)
  else (service subset horizon, true)

/-! ## Result joining

`src/anomaly_detection.py` lines 63-69 and `src/app.py` line 243:
`daily_sales.merge(anomalies_df, on=['unique_id', 'ds'], how=...,
suffixes=('', '_anomaly'))`, followed (in `anomaly_detection.py`) by the
promotion `if 'y' not in merged and 'y_anomaly' in merged: rename`.
A frame is a column-name list plus rows keyed by `(unique_id, ds)` whose
remaining cells are an association list; `none` is a null/NaN cell. -/

structure MRow (V : Type) where
  uid : String
  ds : Int
  attrs : List (String × Option V)
deriving DecidableEq, Repr

structure MFrame (V : Type) where
  cols : List String
  rows : List (MRow V)
deriving DecidableEq, Repr

/-- pandas suffixing of an overlapping (non-key) column name. -/
def renameCol (overlap : List String) (suffix : String) (c : String) : String :=
  if overlap.contains c then c ++ suffix else c

/-- `l.merge(r, on=['unique_id','ds'], how='left'|'inner',
suffixes=(suffL, suffR))`: one output row per matching pair; with
`how='left'` an unmatched left row survives with nulls in the right
columns. -/
def mergeFrames {V : Type} (l r : MFrame V) (inner : Bool)
    (suffL suffR : String) : MFrame V :=
  let overlap := l.cols.filter (fun c => r.cols.contains c)
  let cols := l.cols.map (renameCol overlap suffL) ++
    r.cols.map (renameCol overlap suffR)
  let rows := l.rows.flatMap (fun lr =>
    let ms := r.rows.filter (fun rr => rr.uid == lr.uid && rr.ds == lr.ds)
    if ms.isEmpty then
      if inner then []
      else [⟨lr.uid, lr.ds,
        lr.attrs.map (fun p => (renameCol overlap suffL p.1, p.2)) ++
        r.cols.map (fun c => (renameCol overlap suffR c, none))⟩]
    else ms.map (fun rr => ⟨lr.uid, lr.ds,
      lr.attrs.map (fun p => (renameCol overlap suffL p.1, p.2)) ++
      rr.attrs.map (fun p => (renameCol overlap suffR p.1, p.2))⟩))
  ⟨cols, rows⟩

/-- Cell of a joined row under a column name (`row['y']`). -/
def attrLookup {V : Type} (row : MRow V) (c : String) : Option V :=
  match row.attrs.find? (fun p => p.1 == c) with
  | some p => p.2
  | none => none

/-- `if 'y' not in merged_df.columns and 'y_anomaly' in merged_df.columns:
merged_df = merged_df.rename(columns={'y_anomaly': 'y'})`. -/
def promoteY {V : Type} (f : MFrame V) : MFrame V :=
  if !(f.cols.contains "y") && f.cols.contains "y_anomaly" then
    ⟨f.cols.map (fun c => if c == "y_anomaly" then "y" else c),
     f.rows.map (fun row => ⟨row.uid, row.ds,
       row.attrs.map (fun p => ((if p.1 == "y_anomaly" then "y" else p.1), p.2))⟩)⟩
  else f

/-- The merge step of `src/anomaly_detection.py` lines 63-69: left join
with suffixes `('', '_anomaly')` then the `y` promotion. -/
def mergeAnomalies {V : Type} (l r : MFrame V) : MFrame V :=
  promoteY (mergeFrames l r false "" "_anomaly")

/-- A frame whose rows only carry cells for declared columns (always true
of frames produced by pandas). -/
def MFrame.WellFormed {V : Type} (f : MFrame V) : Prop :=
  ∀ row ∈ f.rows, ∀ p ∈ row.attrs, p.1 ∈ f.cols

/-! ## Credential file loader

`load_env` (`src/anomaly_detection.py` lines 6-13, `src/app.py` lines
70-77): each line of `.env` containing `'='` is stripped, split at the
first `'='`, key and value stripped again, and written into
`os.environ`.  A line is a list of characters; the environment is an
association list where the head entry for a key wins. -/

abbrev Line := List Char

def lstrip (l : Line) : Line := l.dropWhile Char.isWhitespace

def rstrip (l : Line) : Line := (l.reverse.dropWhile Char.isWhitespace).reverse

/-- Python `str.strip()`. -/
def pstrip (l : Line) : Line := rstrip (lstrip l)

/-- Python `s.split("=", 1)` for a string containing `'='`: the part
before the first `'='` and everything after it. -/
def splitEq1 (l : Line) : Line × Line :=
  (l.takeWhile (fun c => !(c == '=')), (l.dropWhile (fun c => !(c == '='))).drop 1)

abbrev Env := List (Line × Line)

/-- `os.environ[key] = value`: overwrites any previous binding. -/
def envSet (e : Env) (k v : Line) : Env := (k, v) :: e.filter (fun p => !(p.1 == k))

def envGet (e : Env) (k : Line) : Option Line :=
  (e.find? (fun p => p.1 == k)).map Prod.snd

/-- One iteration of `for line in f`: `if "=" in line: key, value =
line.strip().split("=", 1); os.environ[key.strip()] = value.strip()`. -/
def processLine (e : Env) (l : Line) : Env :=
  if l.contains '=' then
    envSet e (pstrip (splitEq1 (pstrip l)).1) (pstrip (splitEq1 (pstrip l)).2)
  else e

/-- `load_env()`: `none` models an absent `.env` file
(`os.path.exists` fails), `some lines` its line list. -/
def load_env (file : Option (List Line)) (e : Env) : Env :=
  match file with
  | none => e
  | some lines => lines.foldl processLine e

/-! # Claims -/

/-- C4: for every anomalous row the classifier yields, when
`actual > upper_bound`, direction Spike with magnitude `actual / upper`
(`actual` itself when `upper ≤ 0`), and otherwise direction Dip with
magnitude `lower / actual` (`0` when `actual ≤ 0`); in particular
actual=150, upper=100 gives a Spike of magnitude 1.5 and actual=40,
lower=100 (with actual below the upper bound) a Dip of magnitude 2.5. -/
theorem classifyAnomaly_spec (actual upper lower : ℚ) :
    (upper < actual → 0 < upper →
      classifyAnomaly actual upper lower = (Direction.Spike, actual / upper)) ∧
    (upper < actual → upper ≤ 0 →
      classifyAnomaly actual upper lower = (Direction.Spike, actual)) ∧
    (actual ≤ upper → 0 < actual →
      classifyAnomaly actual upper lower = (Direction.Dip, lower / actual)) ∧
    (actual ≤ upper → actual ≤ 0 →
      classifyAnomaly actual upper lower = (Direction.Dip, 0)) ∧
    classifyAnomaly 150 100 lower = (Direction.Spike, 3 / 2) ∧
    classifyAnomaly 40 100 100 = (Direction.Dip, 5 / 2) := by
  refine ⟨?_, ?_, ?_, ?_, ?_, ?_⟩
  · intro h1 h2
    rw [classifyAnomaly, if_pos h1, if_pos h2]
  · intro h1 h2
    rw [classifyAnomaly, if_pos h1, if_neg (not_lt.mpr h2), div_one]
  · intro h1 h2
    rw [classifyAnomaly, if_neg (not_lt.mpr h1), if_pos h2]
  · intro h1 h2
    rw [classifyAnomaly, if_neg (not_lt.mpr h1), if_neg (not_lt.mpr h2)]
  · rw [classifyAnomaly, if_pos (by norm_num), if_pos (by norm_num)]
    norm_num
  · rw [classifyAnomaly, if_neg (by norm_num), if_pos (by norm_num)]
    norm_num

/-- Witness for C4 at actual=150, upper=100, lower=0. -/
theorem classifyAnomaly_spec_witness :
    (100 : ℚ) < 150 ∧ (0 : ℚ) < 100 ∧
      classifyAnomaly 150 100 0 = (Direction.Spike, 150 / 100) :=
  ⟨by norm_num, by norm_num,
    (classifyAnomaly_spec 150 100 0).1 (by norm_num) (by norm_num)⟩

/-- C6: whenever the rows selected by entity id filter down to the empty
frame, both adapters return an empty result and never issue the external
service call (the call flag stays `false`, for every possible service). -/
theorem adapters_empty_selection {V A F : Type}
    (serviceA : List (Row V) → List A) (serviceF : List (Row V) → Nat → List F)
    (df : List (Row V)) (selected : List String) (horizon : Nat)
    (h : df.filter (fun r => selected.contains r.uid) = []) :
    detect_anomalies serviceA df selected = ([], false) ∧
    generate_forecast serviceF df selected horizon = ([], false) := by
  constructor
  · simp only [detect_anomalies, h]
    rfl
  · simp only [generate_forecast, h]
    rfl

/-- Witness for C6: one data row, no selected entities. -/
theorem adapters_empty_selection_witness :
    ([⟨"A", 0, (5 : Int)⟩] : List (Row Int)).filter
        (fun r => ([] : List String).contains r.uid) = [] ∧
    detect_anomalies (fun _ => ([] : List Int)) [⟨"A", 0, (5 : Int)⟩] [] = ([], false) ∧
    generate_forecast (fun _ _ => ([] : List Int)) [⟨"A", 0, (5 : Int)⟩] [] 7 = ([], false) :=
  ⟨by decide,
    adapters_empty_selection (fun _ => ([] : List Int)) (fun _ _ => ([] : List Int))
      [⟨"A", 0, (5 : Int)⟩] [] 7 (by decide)⟩

/-- C7 (the code, at the failing input): on an empty raw input neither
pipeline returns an empty series set — both raise.  The full-span script
reaches `pd.concat([])`, which raises `ValueError("No objects to
concatenate")`; `preprocess_data` computes `max()` of an empty column
(`NaT`) and `pd.date_range` on it raises. -/
theorem empty_input_raises :
    regularizeFullSpan ([] : List (Row ℚ)) =
        Except.error "No objects to concatenate" ∧
      preprocess_data ([] : List (Row ℚ)) =
        Except.error "Neither start nor end can be NaT" := by
  exact ⟨rfl, rfl⟩

/-- C9 (amended): the insight synthesizer sorts the anomalous rows by day
descending, renders exactly the first 6 of them as cards (hence at most
6), and, whenever more than 6 exist, shows a banner carrying the total
anomaly count (not the count of the remaining ones); with 6 or fewer, no
banner. -/
theorem insight_cards_spec {V : Type} (rows : List (ARow V)) :
    List.Sorted dsDescend (anomalousData rows) ∧
    insightCards rows = (anomalousData rows).take 6 ∧
    (insightCards rows).length ≤ 6 ∧
    (6 < (anomalousData rows).length →
      truncationNotice rows = some (anomalousData rows).length) ∧
    ((anomalousData rows).length ≤ 6 → truncationNotice rows = none) := by
  refine ⟨List.sorted_insertionSort dsDescend _, rfl, ?_, ?_, ?_⟩
  · rw [insightCards, List.length_take]
    exact min_le_left _ _
  · intro h
    rw [truncationNotice, if_pos h]
  · intro h
    rw [truncationNotice, if_neg (not_lt.mpr h)]

/-- Seven anomalous rows on seven distinct days. -/
def exInsightRows : List (ARow Int) :=
  [⟨"A", 0, 0, true⟩, ⟨"A", 1, 0, true⟩, ⟨"A", 2, 0, true⟩, ⟨"A", 3, 0, true⟩,
   ⟨"A", 4, 0, true⟩, ⟨"A", 5, 0, true⟩, ⟨"A", 6, 0, true⟩]

/-- Counterexample to C9 as stated: with 7 anomalies, 6 are presented and
1 remains, but the banner reports 7 — the total count, not the count of
the remaining anomalies. -/
theorem insight_notice_not_remainder :
    (anomalousData exInsightRows).length = 7 ∧
    (insightCards exInsightRows).length = 6 ∧
    truncationNotice exInsightRows = some 7 ∧
    truncationNotice exInsightRows ≠
      some ((anomalousData exInsightRows).length - (insightCards exInsightRows).length) := by
  refine ⟨by decide, by decide, by decide, by decide⟩

/-- Witness for C9's amended theorem at the seven-anomaly input. -/
theorem insight_cards_spec_witness :
    6 < (anomalousData exInsightRows).length ∧
      truncationNotice exInsightRows = some (anomalousData exInsightRows).length :=
  ⟨by decide, (insight_cards_spec exInsightRows).2.2.2.1 (by decide)⟩

/-! ### Join reconciliation lemmas (C5) -/

theorem contains_iff_mem {α : Type _} [BEq α] [LawfulBEq α] (l : List α) (a : α) :
    l.contains a = true ↔ a ∈ l := by
  simp

theorem renameCol_nil_suffix (ov : List String) (c : String) :
    renameCol ov "" c = c := by
  rw [renameCol]
  split
  · exact String.append_empty c
  · rfl

theorem attrs_map_renameCol_nil {V : Type} (ov : List String)
    (ats : List (String × Option V)) :
    ats.map (fun p => (renameCol ov "" p.1, p.2)) = ats := by
  induction ats with
  | nil => rfl
  | cons p ps ih => simp [renameCol_nil_suffix, ih]

theorem append_anomaly_ne_y (c : String) : c ++ "_anomaly" ≠ "y" := by
  intro h
  have h2 := congrArg String.length h
  rw [String.length_append] at h2
  have h3 : ("_anomaly" : String).length = 8 := rfl
  have h4 : ("y" : String).length = 1 := rfl
  omega

theorem cols_mergeFrames {V : Type} (l r : MFrame V) (inner : Bool)
    (suffL suffR : String) :
    (mergeFrames l r inner suffL suffR).cols =
      l.cols.map (renameCol (l.cols.filter (fun c => r.cols.contains c)) suffL) ++
      r.cols.map (renameCol (l.cols.filter (fun c => r.cols.contains c)) suffR) := rfl

theorem promoteY_of_y_mem {V : Type} {f : MFrame V} (h : "y" ∈ f.cols) :
    promoteY f = f := by
  rw [promoteY, if_neg]
  intro hcond
  rw [(contains_iff_mem f.cols "y").mpr h] at hcond
  simp at hcond

/-- Provenance and `y`-cell preservation of a suffix-`('', '_anomaly')`
merge when the right frame has no `y` column: every output row comes from
a left row with the same key and the same `y` cell. -/
theorem merge_row_y_preserved {V : Type} {l r : MFrame V}
    (hr : r.WellFormed) (hry : "y" ∉ r.cols) {inner : Bool} {o : MRow V}
    (ho : o ∈ (mergeFrames l r inner "" "_anomaly").rows) :
    ∃ lr ∈ l.rows, o.uid = lr.uid ∧ o.ds = lr.ds ∧
      attrLookup o "y" = attrLookup lr "y" := by
  rw [mergeFrames] at ho
  simp only [List.mem_flatMap] at ho
  obtain ⟨lr, hlr, hmem⟩ := ho
  refine ⟨lr, hlr, ?_⟩
  set ov := l.cols.filter (fun c => r.cols.contains c) with hov
  have hrenR : ∀ c ∈ r.cols, renameCol ov "_anomaly" c ≠ "y" := by
    intro c hc
    rw [renameCol]
    split
    · exact append_anomaly_ne_y c
    · intro hcy
      exact hry (hcy ▸ hc)
  split at hmem
  · split at hmem
    · simp at hmem
    · simp only [List.mem_singleton] at hmem
      subst hmem
      refine ⟨rfl, rfl, ?_⟩
      rw [attrLookup, attrLookup, List.find?_append, attrs_map_renameCol_nil]
      cases hfl : List.find? (fun p => p.1 == "y") lr.attrs with
      | some p => rfl
      | none =>
        have hfr : List.find? (fun p => p.1 == "y")
            (r.cols.map (fun c => (renameCol ov "_anomaly" c, (none : Option V)))) = none := by
          rw [List.find?_eq_none]
          rintro ⟨n, v⟩ hx
          simp only [List.mem_map] at hx
          obtain ⟨c, hc, hceq⟩ := hx
          have hn : n = renameCol ov "_anomaly" c := (Prod.mk.injEq .. ▸ hceq).1.symm
          simp only [hn]
          simpa using hrenR c hc
        rw [hfr]
        rfl
  · simp only [List.mem_map] at hmem
    obtain ⟨rr, hrr, hmem⟩ := hmem
    subst hmem
    refine ⟨rfl, rfl, ?_⟩
    have hrrmem : rr ∈ r.rows := (List.mem_filter.mp hrr).1
    rw [attrLookup, attrLookup, List.find?_append, attrs_map_renameCol_nil]
    cases hfl : List.find? (fun p => p.1 == "y") lr.attrs with
    | some p => rfl
    | none =>
      have hfr : List.find? (fun p => p.1 == "y")
          (rr.attrs.map (fun p => (renameCol ov "_anomaly" p.1, p.2))) = none := by
        rw [List.find?_eq_none]
        rintro ⟨n, v⟩ hx
        simp only [List.mem_map] at hx
        obtain ⟨p, hp, hpeq⟩ := hx
        have hn : n = renameCol ov "_anomaly" p.1 := (Prod.mk.injEq .. ▸ hpeq).1.symm
        simp only [hn]
        simpa using hrenR p.1 (hr rr hrrmem p hp)
      rw [hfr]
      rfl

/-- C5: in a join of the regularized series (left, carrying `y`) with a
service response frame keyed on `(unique_id, ds)` with suffixes
`('', '_anomaly')`: (i) when the response also carries `y`, the series'
copy keeps the name `y` and the service's copy is suffixed to
`y_anomaly`; (ii) whenever `y` is absent from a joined frame but
`y_anomaly` is present, the promotion step restores a `y` column; (iii)
when the response omits `y`, every row of the joined-and-promoted frame
(left or inner join) keeps exactly the `y` cell of the left row it came
from — the series' value is never lost or nulled. -/
theorem join_preserves_series_value {V : Type} (l r : MFrame V)
    (hly : "y" ∈ l.cols) :
    (∀ inner : Bool, "y" ∈ r.cols →
      "y" ∈ (mergeFrames l r inner "" "_anomaly").cols ∧
      "y_anomaly" ∈ (mergeFrames l r inner "" "_anomaly").cols) ∧
    (∀ f : MFrame V, "y" ∉ f.cols → "y_anomaly" ∈ f.cols →
      "y" ∈ (promoteY f).cols) ∧
    (∀ inner : Bool, r.WellFormed → "y" ∉ r.cols →
      ∀ o ∈ (promoteY (mergeFrames l r inner "" "_anomaly")).rows,
        ∃ lr ∈ l.rows, o.uid = lr.uid ∧ o.ds = lr.ds ∧
          attrLookup o "y" = attrLookup lr "y") := by
  have hycol : ∀ inner : Bool, "y" ∈ (mergeFrames l r inner "" "_anomaly").cols := by
    intro inner
    rw [cols_mergeFrames, List.mem_append]
    left
    have : renameCol (l.cols.filter (fun c => r.cols.contains c)) "" "y" = "y" :=
      renameCol_nil_suffix _ _
    exact this ▸ List.mem_map_of_mem _ hly
  refine ⟨?_, ?_, ?_⟩
  · intro inner hry
    refine ⟨hycol inner, ?_⟩
    rw [cols_mergeFrames, List.mem_append]
    right
    have hov : "y" ∈ l.cols.filter (fun c => r.cols.contains c) :=
      List.mem_filter.mpr ⟨hly, (contains_iff_mem r.cols "y").mpr hry⟩
    have hren : renameCol (l.cols.filter (fun c => r.cols.contains c)) "_anomaly" "y" =
        "y_anomaly" := by
      rw [renameCol, if_pos ((contains_iff_mem _ "y").mpr hov)]
      rfl
    exact hren ▸ List.mem_map_of_mem _ hry
  · intro f hf1 hf2
    rw [promoteY, if_pos]
    · show "y" ∈ f.cols.map _
      have : (if ("y_anomaly" : String) == "y_anomaly" then "y" else "y_anomaly") = "y" := rfl
      exact this ▸ List.mem_map_of_mem _ hf2
    · rw [(contains_iff_mem f.cols "y_anomaly").mpr hf2]
      have : f.cols.contains "y" = false := by
        cases hc : f.cols.contains "y" with
        | false => rfl
        | true => exact absurd ((contains_iff_mem _ _).mp hc) hf1
      rw [this]
      rfl
  · intro inner hr hry o ho
    rw [promoteY_of_y_mem (hycol inner)] at ho
    exact merge_row_y_preserved hr hry ho

/-- Witness for C5: a one-row series joined with a service response that
omits the `y` column; the joined row keeps the series' value 5. -/
theorem join_preserves_series_value_witness :
    ("y" ∈ (⟨["y"], [⟨"A", 0, [("y", some (5 : Int))]⟩]⟩ : MFrame Int).cols) ∧
    MFrame.WellFormed (⟨["anomaly"], [⟨"A", 0, [("anomaly", some (1 : Int))]⟩]⟩ : MFrame Int) ∧
    ("y" ∉ (⟨["anomaly"], [⟨"A", 0, [("anomaly", some (1 : Int))]⟩]⟩ : MFrame Int).cols) ∧
    (∀ o ∈ (promoteY (mergeFrames (⟨["y"], [⟨"A", 0, [("y", some (5 : Int))]⟩]⟩ : MFrame Int)
        (⟨["anomaly"], [⟨"A", 0, [("anomaly", some (1 : Int))]⟩]⟩ : MFrame Int) false "" "_anomaly")).rows,
      ∃ lr ∈ (⟨["y"], [⟨"A", 0, [("y", some (5 : Int))]⟩]⟩ : MFrame Int).rows,
        o.uid = lr.uid ∧ o.ds = lr.ds ∧ attrLookup o "y" = attrLookup lr "y") := by
  refine ⟨by decide, ?_, by decide, ?_⟩
  · intro row hrow p hp
    fin_cases hrow
    fin_cases hp
    decide
  · exact (join_preserves_series_value
      (⟨["y"], [⟨"A", 0, [("y", some (5 : Int))]⟩]⟩ : MFrame Int)
      (⟨["anomaly"], [⟨"A", 0, [("anomaly", some (1 : Int))]⟩]⟩ : MFrame Int)
      (by decide)).2.2 false
      (by intro row hrow p hp
          fin_cases hrow
          fin_cases hp
          decide)
      (by decide)

/-! ### Credential-loader lemmas (C10)

The code strips the whole line before splitting; the claim describes a
split of the raw line at its first `'='` followed by stripping key and
value.  The lemmas below show the two descriptions agree. -/

theorem ws_not_eq {c : Char} (h : c.isWhitespace = true) : (c == '=') = false := by
  simp [Char.isWhitespace] at h
  rcases h with ((h | h) | h) | h <;> (subst h; decide)

def wsTail (l : Line) : Line := (l.reverse.takeWhile Char.isWhitespace).reverse

theorem rstrip_append_wsTail (l : Line) : rstrip l ++ wsTail l = l := by
  rw [rstrip, wsTail, ← List.reverse_append, List.takeWhile_append_dropWhile,
    List.reverse_reverse]

theorem wsTail_ws {l : Line} {c : Char} (h : c ∈ wsTail l) :
    c.isWhitespace = true := by
  rw [wsTail, List.mem_reverse] at h
  exact List.mem_takeWhile_imp h

theorem mem_eq_rstrip {l : Line} (h : '=' ∈ l) : '=' ∈ rstrip l := by
  conv at h => rw [← rstrip_append_wsTail l]
  rcases List.mem_append.mp h with h | h
  · exact h
  · exact absurd (wsTail_ws h) (by decide)

theorem mem_eq_lstrip {l : Line} (h : '=' ∈ l) : '=' ∈ lstrip l := by
  conv at h => rw [← List.takeWhile_append_dropWhile Char.isWhitespace l]
  rcases List.mem_append.mp h with h | h
  · exact absurd (List.mem_takeWhile_imp h) (by decide)
  · exact h

theorem takeWhile_append_of_eq_mem {a b : Line} (h : '=' ∈ a) :
    List.takeWhile (fun c => !(c == '=')) (a ++ b) =
    List.takeWhile (fun c => !(c == '=')) a := by
  induction a with
  | nil => simp at h
  | cons x xs ih =>
    by_cases hx : x = '='
    · subst hx
      rw [List.cons_append, List.takeWhile_cons, List.takeWhile_cons]
      simp
    · have hx' : (!(x == '=')) = true := by simp [hx]
      have hmem : '=' ∈ xs := by
        rcases List.mem_cons.mp h with h' | h'
        · exact absurd h'.symm hx
        · exact h'
      rw [List.cons_append, List.takeWhile_cons, List.takeWhile_cons, if_pos hx',
        if_pos hx', ih hmem]

theorem dropWhile_append_of_eq_mem {a b : Line} (h : '=' ∈ a) :
    List.dropWhile (fun c => !(c == '=')) (a ++ b) =
    List.dropWhile (fun c => !(c == '=')) a ++ b := by
  induction a with
  | nil => simp at h
  | cons x xs ih =>
    by_cases hx : x = '='
    · subst hx
      rw [List.cons_append, List.dropWhile_cons, List.dropWhile_cons]
      simp
    · have hx' : (!(x == '=')) = true := by simp [hx]
      have hmem : '=' ∈ xs := by
        rcases List.mem_cons.mp h with h' | h'
        · exact absurd h'.symm hx
        · exact h'
      rw [List.cons_append, List.dropWhile_cons, List.dropWhile_cons, if_pos hx',
        if_pos hx', ih hmem]

theorem dropWhile_ne_nil_of_eq_mem {a : Line} (h : '=' ∈ a) :
    List.dropWhile (fun c => !(c == '=')) a ≠ [] := by
  intro hnil
  have h2 := List.dropWhile_eq_nil_iff.mp hnil '=' h
  simp at h2

theorem pstrip_cons_ws {c : Char} (hc : c.isWhitespace = true) (l : Line) :
    pstrip (c :: l) = pstrip l := by
  simp only [pstrip, lstrip, List.dropWhile_cons, if_pos hc]

theorem pstrip_takeWhile_lstrip (l : Line) :
    pstrip (List.takeWhile (fun c => !(c == '=')) (lstrip l)) =
    pstrip (List.takeWhile (fun c => !(c == '=')) l) := by
  induction l with
  | nil => rfl
  | cons c cs ih =>
    by_cases hc : c.isWhitespace = true
    · have h1 : lstrip (c :: cs) = lstrip cs := by
        simp only [lstrip, List.dropWhile_cons, if_pos hc]
      have h2 : (!(c == '=')) = true := by simp [ws_not_eq hc]
      rw [h1, ih, List.takeWhile_cons, if_pos h2, pstrip_cons_ws hc]
    · have h1 : lstrip (c :: cs) = c :: cs := by
        simp only [lstrip, List.dropWhile_cons, if_neg hc]
      rw [h1]

theorem dropWhile_lstrip (l : Line) :
    List.dropWhile (fun c => !(c == '=')) (lstrip l) =
    List.dropWhile (fun c => !(c == '=')) l := by
  induction l with
  | nil => rfl
  | cons c cs ih =>
    by_cases hc : c.isWhitespace = true
    · have h1 : lstrip (c :: cs) = lstrip cs := by
        simp only [lstrip, List.dropWhile_cons, if_pos hc]
      have h2 : (!(c == '=')) = true := by simp [ws_not_eq hc]
      rw [h1, ih, List.dropWhile_cons, if_pos h2]
    · have h1 : lstrip (c :: cs) = c :: cs := by
        simp only [lstrip, List.dropWhile_cons, if_neg hc]
      rw [h1]

theorem dropWhile_ws_append_all {a x : Line} (h : ∀ c ∈ a, c.isWhitespace = true) :
    List.dropWhile Char.isWhitespace (a ++ x) =
    List.dropWhile Char.isWhitespace x := by
  induction a with
  | nil => rfl
  | cons c cs ih =>
    rw [List.cons_append, List.dropWhile_cons, if_pos (h c (List.mem_cons_self c cs))]
    exact ih (fun d hd => h d (List.mem_cons_of_mem _ hd))

theorem rstrip_append_all_ws {a b : Line} (h : ∀ c ∈ b, c.isWhitespace = true) :
    rstrip (a ++ b) = rstrip a := by
  simp only [rstrip, List.reverse_append]
  rw [dropWhile_ws_append_all (fun c hc => h c (List.mem_reverse.mp hc))]

theorem pstrip_append_all_ws {a b : Line} (h : ∀ c ∈ b, c.isWhitespace = true) :
    pstrip (a ++ b) = pstrip a := by
  by_cases ha : lstrip a = []
  · have h2 : lstrip b = [] :=
      List.dropWhile_eq_nil_iff.mpr h
    have h1 : lstrip (a ++ b) = [] := by
      simp only [lstrip] at ha h2 ⊢
      rw [List.dropWhile_append, ha]
      simp [h2]
    simp only [pstrip, h1, ha]
  · have h1 : lstrip (a ++ b) = lstrip a ++ b := by
      simp only [lstrip] at ha ⊢
      rw [List.dropWhile_append, if_neg (by simp [ha])]
    simp only [pstrip, h1]
    exact rstrip_append_all_ws h

theorem splitKey_strip_commute {l : Line} (h : '=' ∈ l) :
    pstrip (splitEq1 (pstrip l)).1 = pstrip (splitEq1 l).1 := by
  have hrs : '=' ∈ rstrip (lstrip l) := mem_eq_rstrip (mem_eq_lstrip h)
  have hdecomp := rstrip_append_wsTail (lstrip l)
  simp only [splitEq1]
  rw [show pstrip l = rstrip (lstrip l) from rfl]
  have h1 : List.takeWhile (fun c => !(c == '=')) (lstrip l) =
      List.takeWhile (fun c => !(c == '=')) (rstrip (lstrip l)) := by
    conv_lhs => rw [← hdecomp]
    rw [takeWhile_append_of_eq_mem hrs]
  rw [← h1, pstrip_takeWhile_lstrip]

theorem splitVal_strip_commute {l : Line} (h : '=' ∈ l) :
    pstrip (splitEq1 (pstrip l)).2 = pstrip (splitEq1 l).2 := by
  have hrs : '=' ∈ rstrip (lstrip l) := mem_eq_rstrip (mem_eq_lstrip h)
  have hdecomp := rstrip_append_wsTail (lstrip l)
  simp only [splitEq1]
  rw [show pstrip l = rstrip (lstrip l) from rfl]
  rw [← dropWhile_lstrip l]
  conv_rhs => rw [← hdecomp]
  rw [dropWhile_append_of_eq_mem hrs]
  rw [List.drop_append_of_le_length (by
    cases hdw : List.dropWhile (fun c => !(c == '=')) (rstrip (lstrip l)) with
    | nil => exact absurd hdw (dropWhile_ne_nil_of_eq_mem hrs)
    | cons _ _ => simp)]
  rw [pstrip_append_all_ws (fun c hc => wsTail_ws hc)]

theorem find?_filter_not_key (e : Env) (k k' : Line) (hne : k' ≠ k) :
    List.find? (fun p => p.1 == k') (e.filter (fun p => !(p.1 == k))) =
    List.find? (fun p => p.1 == k') e := by
  induction e with
  | nil => rfl
  | cons q qs ih =>
    rw [List.filter_cons]
    by_cases hq : (q.1 == k) = true
    · have hq1 : q.1 = k := by simpa using hq
      have hq' : (q.1 == k') = false := by
        rw [hq1]
        exact beq_eq_false_iff_ne.mpr (fun hh => hne hh.symm)
      rw [if_neg (by simp [hq]), List.find?_cons, hq', ih]
    · have hq0 : (!(q.1 == k)) = true := by simp at hq; simp [hq]
      rw [if_pos hq0, List.find?_cons, List.find?_cons]
      cases hq2 : (q.1 == k') with
      | true => rfl
      | false => exact ih

/-- C10: the loader handles each line independently — a line with no `'='`
changes nothing; a line containing `'='` is split at its first `'='` only
(values may contain further `'='`), key and value are stripped of
surrounding whitespace and the pair is written to the environment,
overwriting any previous binding for that key (other keys keep their
bindings); an absent `.env` file leaves the environment untouched. -/
theorem load_env_spec :
    (∀ (e : Env) (l : Line), l.contains '=' = false → processLine e l = e) ∧
    (∀ (e : Env) (l : Line), l.contains '=' = true →
      processLine e l = envSet e (pstrip (splitEq1 l).1) (pstrip (splitEq1 l).2)) ∧
    (∀ (e : Env) (k v : Line), envGet (envSet e k v) k = some v) ∧
    (∀ (e : Env) (k v k' : Line), k' ≠ k →
      envGet (envSet e k v) k' = envGet e k') ∧
    (∀ e : Env, load_env none e = e) := by
  refine ⟨?_, ?_, ?_, ?_, fun _ => rfl⟩
  · intro e l h
    rw [processLine, if_neg (by rw [h]; simp)]
  · intro e l h
    have hm : '=' ∈ l := (contains_iff_mem l '=').mp h
    rw [processLine, if_pos h, splitKey_strip_commute hm, splitVal_strip_commute hm]
  · intro e k v
    simp [envGet, envSet, List.find?_cons]
  · intro e k v k' hne
    rw [envGet, envGet, envSet, List.find?_cons]
    have hh : ((k, v).1 == k') = false :=
      beq_eq_false_iff_ne.mpr (fun hh => hne hh.symm)
    rw [hh, find?_filter_not_key e k k' hne]

/-! ### Regularizer structure lemmas (C1, C2, C3, C8) -/

theorem rowLt_iff {V : Type} (a b : Row V) :
    rowLt a b ↔ strLtB a.uid b.uid = true ∨ (a.uid = b.uid ∧ a.ds < b.ds) :=
  Iff.rfl

theorem aggKeys_pairwise {V : Type} (raws : List (Row V)) :
    (aggKeys raws).Pairwise pkLt := by
  have hs : List.Sorted pkLe (List.insertionSort pkLe (raws.map Row.key)) :=
    List.sorted_insertionSort pkLe _
  have hle : (aggKeys raws).Pairwise pkLe :=
    List.Pairwise.sublist (List.dedup_sublist _) hs
  have hnd : (aggKeys raws).Nodup := List.nodup_dedup _
  exact (hle.and hnd).imp (fun h => pkLe_of_ne h.1 h.2)

theorem mem_aggKeys {V : Type} {raws : List (Row V)} {k : Key} :
    k ∈ aggKeys raws ↔ k ∈ raws.map Row.key := by
  rw [aggKeys, List.mem_dedup]
  exact (List.perm_insertionSort pkLe _).mem_iff

theorem aggregate_pairwise {V : Type} [Zero V] [Add V] (raws : List (Row V)) :
    (aggregate raws).Pairwise rowLt := by
  rw [aggregate]
  refine List.Pairwise.map _ ?_ (aggKeys_pairwise raws)
  intro a b h
  show pkLt (a.1, a.2) (b.1, b.2)
  rw [Prod.mk.eta, Prod.mk.eta]
  exact h

theorem keys_nodup_of_pairwise {V : Type} {L : List (Row V)}
    (h : L.Pairwise rowLt) : (L.map Row.key).Nodup := by
  refine List.Pairwise.map _ ?_ h
  intro a b hab he
  have hk : pkLt a.key b.key := hab
  exact pkLt_irrefl _ (he ▸ hk)

theorem find?_key_of_nodup {V : Type} {L : List (Row V)}
    (hnd : (L.map Row.key).Nodup) {r : Row V} (hr : r ∈ L) :
    List.find? (fun x => x.uid == r.uid && x.ds == r.ds) L = some r := by
  induction L with
  | nil => simp at hr
  | cons q qs ih =>
    rw [List.map_cons, List.nodup_cons] at hnd
    rcases List.mem_cons.mp hr with heq | hr'
    · subst heq
      have hq : (r.uid == r.uid && r.ds == r.ds) = true := by simp
      simp [List.find?_cons, hq]
    · have hqr : (q.uid == r.uid && q.ds == r.ds) = false := by
        cases hb : (q.uid == r.uid && q.ds == r.ds) with
        | false => rfl
        | true =>
          have hk : Row.key q = Row.key r := by
            simp only [Bool.and_eq_true, beq_iff_eq] at hb
            exact Prod.ext hb.1 hb.2
          exact absurd (hk ▸ List.mem_map_of_mem Row.key hr') hnd.1
      simp [List.find?_cons, hqr]
      exact ih hnd.2 hr'

theorem filter_key_of_nodup {V : Type} {L : List (Row V)}
    (hnd : (L.map Row.key).Nodup) {r : Row V} (hr : r ∈ L) :
    L.filter (fun x => x.uid == r.uid && x.ds == r.ds) = [r] := by
  induction L with
  | nil => simp at hr
  | cons q qs ih =>
    rw [List.map_cons, List.nodup_cons] at hnd
    rcases List.mem_cons.mp hr with heq | hr'
    · subst heq
      have hq : (r.uid == r.uid && r.ds == r.ds) = true := by simp
      rw [List.filter_cons, if_pos hq]
      have hrest : qs.filter (fun x => x.uid == r.uid && x.ds == r.ds) = [] := by
        rw [List.filter_eq_nil_iff]
        intro x hx hb
        have hk : Row.key x = Row.key r := by
          simp only [Bool.and_eq_true, beq_iff_eq] at hb
          exact Prod.ext hb.1 hb.2
        exact hnd.1 (hk ▸ List.mem_map_of_mem Row.key hx)
      rw [hrest]
    · have hqr : (q.uid == r.uid && q.ds == r.ds) = false := by
        cases hb : (q.uid == r.uid && q.ds == r.ds) with
        | false => rfl
        | true =>
          have hk : Row.key q = Row.key r := by
            simp only [Bool.and_eq_true, beq_iff_eq] at hb
            exact Prod.ext hb.1 hb.2
          exact absurd (hk ▸ List.mem_map_of_mem Row.key hr') hnd.1
      rw [List.filter_cons, if_neg (by simp [hqr])]
      exact ih hnd.2 hr'

theorem find?_key_list (l : List Key) (u : String) (d : Int) :
    List.find? (fun k => k.1 == u && k.2 == d) l =
      if (u, d) ∈ l then some (u, d) else none := by
  induction l with
  | nil => simp
  | cons k ks ih =>
    by_cases hk : k = (u, d)
    · have hq : (k.1 == u && k.2 == d) = true := by rw [hk]; simp
      have hmem : (u, d) ∈ k :: ks := by rw [hk]; exact List.mem_cons_self _ _
      rw [List.find?_cons]
      simp only [hq]
      rw [if_pos hmem, hk]
    · have hq : (k.1 == u && k.2 == d) = false := by
        cases hb : (k.1 == u && k.2 == d) with
        | false => rfl
        | true =>
          simp only [Bool.and_eq_true, beq_iff_eq] at hb
          exact absurd (Prod.ext hb.1 hb.2) hk
      rw [List.find?_cons, hq, ih]
      by_cases hmem : (u, d) ∈ ks
      · rw [if_pos hmem, if_pos (List.mem_cons_of_mem _ hmem)]
      · rw [if_neg hmem, if_neg (by
          intro hc
          rcases List.mem_cons.mp hc with hc' | hc'
          · exact hk hc'.symm
          · exact hmem hc')]

/-- Bridge between the regularizers' lookup-then-fill and the raw sums:
the filled value at `(u, d)` is exactly the sum of the raw values of that
group (`0` when the group is empty). -/
theorem aggLookup_aggregate {V : Type} [Zero V] [Add V]
    (raws : List (Row V)) (u : String) (d : Int) :
    (aggLookup (aggregate raws) u d).getD 0 = rawSum raws u d := by
  rw [aggLookup, aggregate, List.find?_map]
  have hpred : ((fun r : Row V => r.uid == u && r.ds == d) ∘
      (fun k : Key => (⟨k.1, k.2, rawSum raws k.1 k.2⟩ : Row V))) =
      fun k : Key => k.1 == u && k.2 == d := rfl
  rw [hpred, find?_key_list]
  by_cases hmem : (u, d) ∈ aggKeys raws
  · rw [if_pos hmem]
    rfl
  · rw [if_neg hmem]
    have hz : rawSum raws u d = 0 := by
      have hfil : raws.filter (fun r => r.uid == u && r.ds == d) = [] := by
        rw [List.filter_eq_nil_iff]
        intro x hx hb
        simp only [Bool.and_eq_true, beq_iff_eq] at hb
        have : (u, d) ∈ raws.map Row.key :=
          List.mem_map.mpr ⟨x, hx, Prod.ext hb.1 hb.2⟩
        exact hmem (mem_aggKeys.mpr this)
      rw [rawSum, hfil]
      rfl
    rw [hz]
    rfl

theorem entityIds_pairwise {V : Type} {L : List (Row V)} (h : L.Pairwise rowLt) :
    (entityIds L).Pairwise (fun a b => strLtB a b = true) := by
  have h1 : (L.map Row.uid).Pairwise (fun a b => strLtB a b = true ∨ a = b) := by
    refine List.Pairwise.map _ ?_ h
    intro a b hab
    rcases (rowLt_iff a b).mp hab with hl | ⟨he, _⟩
    · exact Or.inl hl
    · exact Or.inr he
  have h2 : (entityIds L).Pairwise (fun a b => strLtB a b = true ∨ a = b) :=
    List.Pairwise.sublist (List.dedup_sublist _) h1
  have h3 : (entityIds L).Nodup := List.nodup_dedup _
  exact (h2.and h3).imp (fun h => h.1.resolve_right (fun he => absurd he h.2))

theorem entityIds_nodup {V : Type} (L : List (Row V)) : (entityIds L).Nodup :=
  List.nodup_dedup _

theorem mem_entityIds {V : Type} {L : List (Row V)} {u : String} :
    u ∈ entityIds L ↔ ∃ r ∈ L, r.uid = u := by
  rw [entityIds, List.mem_dedup, List.mem_map]

theorem entityRows_ne_nil {V : Type} {L : List (Row V)} {u : String}
    (hu : u ∈ entityIds L) : entityRows L u ≠ [] := by
  obtain ⟨r, hr, hru⟩ := mem_entityIds.mp hu
  intro hnil
  have hmem : r ∈ entityRows L u := List.mem_filter.mpr ⟨hr, by simp [hru]⟩
  rw [hnil] at hmem
  simp at hmem

theorem span_bounds {V : Type} {L : List (Row V)} {u : String}
    (h : entityRows L u ≠ []) :
    ∃ lo hi, listMin ((entityRows L u).map Row.ds) = some lo ∧
      listMax ((entityRows L u).map Row.ds) = some hi ∧ lo ≤ hi := by
  cases hlo : listMin ((entityRows L u).map Row.ds) with
  | none =>
    rw [listMin_eq_none_iff] at hlo
    exact absurd (List.map_eq_nil_iff.mp hlo) h
  | some lo =>
    cases hhi : listMax ((entityRows L u).map Row.ds) with
    | none =>
      rw [listMax_eq_none_iff] at hhi
      exact absurd (List.map_eq_nil_iff.mp hhi) h
    | some hi =>
      refine ⟨lo, hi, rfl, rfl, ?_⟩
      have h1 := (listMin_eq_some_iff.mp hlo).1
      exact (listMax_eq_some_iff.mp hhi).2 lo h1

theorem entityIds_aggregate_ne_nil {V : Type} [Zero V] [Add V]
    {raws : List (Row V)} (h : raws ≠ []) :
    entityIds (aggregate raws) ≠ [] := by
  obtain ⟨r, hr⟩ := List.exists_mem_of_ne_nil raws h
  have hk : Row.key r ∈ aggKeys raws := mem_aggKeys.mpr (List.mem_map_of_mem _ hr)
  have hrow : (⟨r.uid, r.ds, rawSum raws r.uid r.ds⟩ : Row V) ∈ aggregate raws := by
    rw [aggregate]
    exact List.mem_map_of_mem _ hk
  intro hnil
  have hu : r.uid ∈ entityIds (aggregate raws) :=
    mem_entityIds.mpr ⟨_, hrow, rfl⟩
  rw [hnil] at hu
  simp at hu

theorem flatMap_pairwise {V : Type} {ids : List String} {g : String → List (Row V)}
    (hids : ids.Pairwise (fun a b => strLtB a b = true))
    (hU : ∀ u, ∀ r ∈ g u, r.uid = u)
    (hP : ∀ u, (g u).Pairwise rowLt) :
    (ids.flatMap g).Pairwise rowLt := by
  rw [List.flatMap_def, List.pairwise_flatten]
  constructor
  · intro l hl
    obtain ⟨u, _, rfl⟩ := List.mem_map.mp hl
    exact hP u
  · rw [List.pairwise_map]
    refine hids.imp ?_
    intro a b hab x hx y hy
    rw [rowLt_iff, hU a x hx, hU b y hy]
    exact Or.inl hab

theorem filter_flatMap_of_nodup {V : Type} {ids : List String}
    {g : String → List (Row V)} (hU : ∀ u, ∀ r ∈ g u, r.uid = u)
    (hnd : ids.Nodup) {u : String} (hu : u ∈ ids) :
    (ids.flatMap g).filter (fun r => r.uid == u) = g u := by
  induction ids with
  | nil => simp at hu
  | cons v vs ih =>
    rw [List.flatMap_cons, List.filter_append]
    rcases List.mem_cons.mp hu with heq | hu'
    · subst heq
      have h1 : (g u).filter (fun r => r.uid == u) = g u :=
        List.filter_eq_self.mpr (fun r hr => by simp [hU u r hr])
      have h2 : (vs.flatMap g).filter (fun r => r.uid == u) = [] := by
        rw [List.filter_eq_nil_iff]
        intro r hr
        obtain ⟨w, hw, hrw⟩ := List.mem_flatMap.mp hr
        have hne : w ≠ u := fun he => (List.nodup_cons.mp hnd).1 (he ▸ hw)
        simp [hU w r hrw, hne]
      rw [h1, h2, List.append_nil]
    · have hvu : v ≠ u := fun he => (List.nodup_cons.mp hnd).1 (he ▸ hu')
      have h1 : (g v).filter (fun r => r.uid == u) = [] := by
        rw [List.filter_eq_nil_iff]
        intro r hr
        simp [hU v r hr, hvu]
      rw [h1, List.nil_append]
      exact ih (List.nodup_cons.mp hnd).2 hu'

theorem dedup_const_block {v : String} {ys : List String} (hv : v ∉ ys) :
    ∀ xs : List String, (∀ x ∈ xs, x = v) → xs ≠ [] →
      (xs ++ ys).dedup = v :: ys.dedup := by
  intro xs
  induction xs with
  | nil => exact fun _ h => absurd rfl h
  | cons x xs' ih =>
    intro hall _
    have hx : x = v := hall x (List.mem_cons_self _ _)
    by_cases hxs : xs' = []
    · subst hxs
      rw [List.cons_append, List.nil_append, hx, List.dedup_cons_of_not_mem hv]
    · obtain ⟨z, hz⟩ := List.exists_mem_of_ne_nil xs' hxs
      have hvmem : v ∈ xs' ++ ys :=
        List.mem_append_left _ ((hall z (List.mem_cons_of_mem _ hz)) ▸ hz)
      rw [List.cons_append, hx, List.dedup_cons_of_mem hvmem]
      exact ih (fun y hy => hall y (List.mem_cons_of_mem _ hy)) hxs

theorem dedup_blocks {V : Type} {ids : List String} {g : String → List (Row V)}
    (hU : ∀ u, ∀ r ∈ g u, r.uid = u) (hnd : ids.Nodup)
    (hNE : ∀ u ∈ ids, g u ≠ []) :
    ((ids.flatMap g).map Row.uid).dedup = ids := by
  induction ids with
  | nil => rfl
  | cons v vs ih =>
    rw [List.flatMap_cons, List.map_append]
    have hv : v ∉ (vs.flatMap g).map Row.uid := by
      intro hmem
      obtain ⟨r, hr, hru⟩ := List.mem_map.mp hmem
      obtain ⟨w, hw, hrw⟩ := List.mem_flatMap.mp hr
      rw [hU w r hrw] at hru
      exact (List.nodup_cons.mp hnd).1 (hru ▸ hw)
    rw [dedup_const_block hv ((g v).map Row.uid)
      (fun x hx => by
        obtain ⟨r, hr, hrx⟩ := List.mem_map.mp hx
        rw [← hrx]
        exact hU v r hr)
      (fun he => hNE v (List.mem_cons_self _ _) (List.map_eq_nil_iff.mp he))]
    rw [ih (List.nodup_cons.mp hnd).2 (fun u hu => hNE u (List.mem_cons_of_mem _ hu))]

theorem sortRows_eq_self {V : Type} {L : List (Row V)} (h : L.Pairwise rowLt) :
    sortRows L = L :=
  List.Sorted.insertionSort_eq (List.Pairwise.imp (fun hab => pkLt.le hab) h)

/-- An already-regular frame (strictly sorted by key) is a fixed point of
the daily aggregation. -/
theorem aggregate_eq_self {V : Type} [AddMonoid V] {L : List (Row V)}
    (h : L.Pairwise rowLt) : aggregate L = L := by
  have hkeys : (L.map Row.key).Pairwise pkLt :=
    List.Pairwise.map _ (fun a b hab => hab) h
  have hsorted : List.Sorted pkLe (L.map Row.key) :=
    hkeys.imp (fun hab => pkLt.le hab)
  have hnd : (L.map Row.key).Nodup := keys_nodup_of_pairwise h
  rw [aggregate, aggKeys, List.Sorted.insertionSort_eq hsorted,
    List.dedup_eq_self.mpr hnd, List.map_map]
  have hid : ∀ r ∈ L,
      ((fun k : Key => (⟨k.1, k.2, rawSum L k.1 k.2⟩ : Row V)) ∘ Row.key) r = id r := by
    intro r hr
    show (⟨r.uid, r.ds, rawSum L r.uid r.ds⟩ : Row V) = r
    have hf := filter_key_of_nodup hnd hr
    have hy : rawSum L r.uid r.ds = r.y := by
      rw [rawSum, hf]
      show 0 + r.y = r.y
      exact zero_add r.y
    rw [hy]
  rw [List.map_congr_left hid, List.map_id]

theorem aggLookup_of_mem {V : Type} {L : List (Row V)}
    (hnd : (L.map Row.key).Nodup) {r : Row V} (hr : r ∈ L) :
    aggLookup L r.uid r.ds = some r.y := by
  rw [aggLookup, find?_key_of_nodup hnd hr]
  rfl

theorem series_uid {V : Type} (u : String) (days : List Int) (val : Int → V) :
    ∀ r ∈ days.map (fun d => (⟨u, d, val d⟩ : Row V)), r.uid = u := by
  intro r hr
  obtain ⟨d, _, rfl⟩ := List.mem_map.mp hr
  rfl

theorem series_pairwise {V : Type} (u : String) {days : List Int}
    (hd : days.Pairwise (· < ·)) (val : Int → V) :
    (days.map (fun d => (⟨u, d, val d⟩ : Row V))).Pairwise rowLt := by
  refine List.Pairwise.map _ ?_ hd
  intro a b hab
  rw [rowLt_iff]
  exact Or.inr ⟨rfl, hab⟩

theorem series_map_ds {V : Type} (u : String) (days : List Int) (val : Int → V) :
    (days.map (fun d => (⟨u, d, val d⟩ : Row V))).map Row.ds = days := by
  rw [List.map_map]
  rw [show (Row.ds ∘ fun d => (⟨u, d, val d⟩ : Row V)) = id from rfl, List.map_id]

theorem fullSpanSeries_uid {V : Type} [Zero V] (agg : List (Row V)) (u : String) :
    ∀ r ∈ fullSpanSeries agg u, r.uid = u := by
  intro r hr
  rw [fullSpanSeries] at hr
  cases hlo : listMin ((entityRows agg u).map Row.ds) with
  | none =>
    rw [hlo] at hr
    simp at hr
  | some lo =>
    rw [hlo] at hr
    cases hhi : listMax ((entityRows agg u).map Row.ds) with
    | none =>
      rw [hhi] at hr
      simp at hr
    | some hi =>
      rw [hhi] at hr
      exact series_uid u _ _ r hr

theorem fullSpanSeries_pairwise {V : Type} [Zero V] (agg : List (Row V))
    (u : String) : (fullSpanSeries agg u).Pairwise rowLt := by
  rw [fullSpanSeries]
  cases hlo : listMin ((entityRows agg u).map Row.ds) with
  | none => exact List.Pairwise.nil
  | some lo =>
    cases hhi : listMax ((entityRows agg u).map Row.ds) with
    | none => exact List.Pairwise.nil
    | some hi => exact series_pairwise u (dayRange_pairwise lo hi) _

theorem fullSpanSeries_eq {V : Type} [Zero V] {agg : List (Row V)} {u : String}
    {lo hi : Int} (hlo : listMin ((entityRows agg u).map Row.ds) = some lo)
    (hhi : listMax ((entityRows agg u).map Row.ds) = some hi) :
    fullSpanSeries agg u =
      (dayRange lo hi).map (fun d => ⟨u, d, (aggLookup agg u d).getD 0⟩) := by
  rw [fullSpanSeries, hlo, hhi]

theorem fullSpanSeries_ne_nil {V : Type} [Zero V] {agg : List (Row V)}
    {u : String} (hu : u ∈ entityIds agg) : fullSpanSeries agg u ≠ [] := by
  obtain ⟨lo, hi, hlo, hhi, hle⟩ := span_bounds (entityRows_ne_nil hu)
  rw [fullSpanSeries_eq hlo hhi]
  intro hnil
  have hlen := congrArg List.length hnil
  rw [List.length_map, length_dayRange] at hlen
  simp only [List.length_nil] at hlen
  omega

/-- Shared shape of both regularizers' pre-sort output: blocks of rows of
one entity each, entity ids strictly ascending, days strictly ascending
within a block.  The final `sort_values` is the identity on it. -/
theorem mode_facts {V : Type} {ids : List String} {g : String → List (Row V)}
    (hids : ids.Pairwise (fun a b => strLtB a b = true))
    (hU : ∀ u, ∀ r ∈ g u, r.uid = u)
    (hP : ∀ u, (g u).Pairwise rowLt) :
    sortRows (ids.flatMap g) = ids.flatMap g ∧
    ((ids.flatMap g).map Row.key).Nodup ∧
    (∀ u ∈ ids, (ids.flatMap g).filter (fun r => r.uid == u) = g u) ∧
    (∀ r ∈ ids.flatMap g, r.uid ∈ ids) := by
  have hnd : ids.Nodup := hids.imp (fun hab he => by
    rw [he, strLtB_irrefl] at hab
    exact absurd hab (by simp))
  have hpair : (ids.flatMap g).Pairwise rowLt := flatMap_pairwise hids hU hP
  refine ⟨sortRows_eq_self hpair, keys_nodup_of_pairwise hpair,
    fun u hu => filter_flatMap_of_nodup hU hnd hu, fun r hr => ?_⟩
  obtain ⟨w, hw, hrw⟩ := List.mem_flatMap.mp hr
  rw [hU w r hrw]
  exact hw

theorem regularizeFullSpan_ok {V : Type} [Zero V] [Add V]
    (raws : List (Row V)) (h : entityIds (aggregate raws) ≠ []) :
    regularizeFullSpan raws = Except.ok
      (sortRows ((entityIds (aggregate raws)).flatMap
        (fun u => fullSpanSeries (aggregate raws) u))) := by
  simp only [regularizeFullSpan]
  rw [if_neg (fun hc => h (List.isEmpty_iff.mp hc))]

theorem preprocess_data_ok {V : Type} [Zero V] [Add V] {raws : List (Row V)}
    {maxDay : Int} (hmax : listMax (raws.map Row.ds) = some maxDay)
    (h : entityIds (aggregate raws) ≠ []) :
    preprocess_data raws = Except.ok
      (sortRows ((entityIds (aggregate raws)).flatMap (fun u =>
        (dayRange (maxDay - 180) maxDay).map
          (fun d => ⟨u, d, (aggLookup (aggregate raws) u d).getD 0⟩)))) := by
  simp only [preprocess_data, hmax]
  rw [if_neg (fun hc => h (List.isEmpty_iff.mp hc))]

theorem raws_ne_nil_of_mem {V : Type} [Zero V] [Add V] {raws : List (Row V)}
    {u : String} (hu : u ∈ entityIds (aggregate raws)) : raws ≠ [] := by
  intro hn
  subst hn
  exact List.not_mem_nil u hu

theorem listMax_of_mem_entityIds {V : Type} [Zero V] [Add V]
    {raws : List (Row V)} {u : String}
    (hu : u ∈ entityIds (aggregate raws)) :
    ∃ maxDay, listMax (raws.map Row.ds) = some maxDay := by
  cases hmax : listMax (raws.map Row.ds) with
  | none =>
    rw [listMax_eq_none_iff] at hmax
    exact absurd (List.map_eq_nil_iff.mp hmax) (raws_ne_nil_of_mem hu)
  | some m => exact ⟨m, rfl⟩

/-- C1: each regularizer emits, for every entity id in its output, exactly
one row per calendar day of the computed window — the entity's own
min-to-max span in full-span mode, the shared 181-day fixed window in
fixed-window mode: `(unique_id, ds)` keys are globally duplicate-free,
every window day of the entity is present, rows of the entity never leave
the window, and the per-entity row count is `(end - start).days + 1`. -/
theorem regularizer_one_row_per_day {V : Type} [Zero V] [Add V]
    (raws : List (Row V)) (u : String)
    (hu : u ∈ entityIds (aggregate raws)) :
    (∃ out lo hi, regularizeFullSpan raws = Except.ok out ∧
      listMin ((entityRows (aggregate raws) u).map Row.ds) = some lo ∧
      listMax ((entityRows (aggregate raws) u).map Row.ds) = some hi ∧
      (out.map Row.key).Nodup ∧
      out.countP (fun r => r.uid == u) = (hi - lo).toNat + 1 ∧
      (∀ d : Int, lo ≤ d → d ≤ hi → ∃ r ∈ out, r.uid = u ∧ r.ds = d) ∧
      (∀ r ∈ out, r.uid = u → lo ≤ r.ds ∧ r.ds ≤ hi) ∧
      (∀ r ∈ out, r.uid ∈ entityIds (aggregate raws))) ∧
    (∃ out maxDay, preprocess_data raws = Except.ok out ∧
      listMax (raws.map Row.ds) = some maxDay ∧
      (out.map Row.key).Nodup ∧
      out.countP (fun r => r.uid == u) = (maxDay - (maxDay - 180)).toNat + 1 ∧
      (∀ d : Int, maxDay - 180 ≤ d → d ≤ maxDay →
        ∃ r ∈ out, r.uid = u ∧ r.ds = d) ∧
      (∀ r ∈ out, r.uid = u → maxDay - 180 ≤ r.ds ∧ r.ds ≤ maxDay) ∧
      (∀ r ∈ out, r.uid ∈ entityIds (aggregate raws))) := by
  have hids := entityIds_pairwise (aggregate_pairwise raws)
  have hidne : entityIds (aggregate raws) ≠ [] := List.ne_nil_of_mem hu
  constructor
  · -- full-span mode
    obtain ⟨lo, hi, hlo, hhi, hle⟩ := span_bounds (entityRows_ne_nil hu)
    obtain ⟨hsort, hndk, hfil, hmemid⟩ := mode_facts hids
      (fullSpanSeries_uid (aggregate raws)) (fullSpanSeries_pairwise (aggregate raws))
    refine ⟨_, lo, hi, regularizeFullSpan_ok raws hidne, hlo, hhi, ?_, ?_, ?_, ?_, ?_⟩
    · rw [hsort]
      exact hndk
    · rw [hsort, List.countP_eq_length_filter, hfil u hu,
        fullSpanSeries_eq hlo hhi, List.length_map, length_dayRange]
      omega
    · intro d h1 h2
      rw [hsort]
      refine ⟨⟨u, d, (aggLookup (aggregate raws) u d).getD 0⟩, ?_, rfl, rfl⟩
      refine List.mem_flatMap.mpr ⟨u, hu, ?_⟩
      rw [fullSpanSeries_eq hlo hhi]
      exact List.mem_map_of_mem _ (mem_dayRange.mpr ⟨h1, h2⟩)
    · intro r hr hru
      rw [hsort] at hr
      have hmem : r ∈ fullSpanSeries (aggregate raws) u := by
        rw [← hfil u hu]
        exact List.mem_filter.mpr ⟨hr, by simp [hru]⟩
      rw [fullSpanSeries_eq hlo hhi] at hmem
      obtain ⟨d, hd, rfl⟩ := List.mem_map.mp hmem
      exact mem_dayRange.mp hd
    · intro r hr
      rw [hsort] at hr
      exact hmemid r hr
  · -- fixed-window mode
    obtain ⟨maxDay, hmax⟩ := listMax_of_mem_entityIds hu
    obtain ⟨hsort, hndk, hfil, hmemid⟩ := mode_facts hids
      (fun u' => series_uid u' (dayRange (maxDay - 180) maxDay) _)
      (fun u' => series_pairwise u' (dayRange_pairwise _ _) _)
    refine ⟨_, maxDay, preprocess_data_ok hmax hidne, hmax, ?_, ?_, ?_, ?_, ?_⟩
    · rw [hsort]
      exact hndk
    · rw [hsort, List.countP_eq_length_filter, hfil u hu, List.length_map,
        length_dayRange]
      omega
    · intro d h1 h2
      rw [hsort]
      refine ⟨⟨u, d, (aggLookup (aggregate raws) u d).getD 0⟩, ?_, rfl, rfl⟩
      refine List.mem_flatMap.mpr ⟨u, hu, ?_⟩
      exact List.mem_map_of_mem _ (mem_dayRange.mpr ⟨h1, h2⟩)
    · intro r hr hru
      rw [hsort] at hr
      have hmem : r ∈ (dayRange (maxDay - 180) maxDay).map
          (fun d => (⟨u, d, (aggLookup (aggregate raws) u d).getD 0⟩ : Row V)) := by
        rw [← hfil u hu]
        exact List.mem_filter.mpr ⟨hr, by simp [hru]⟩
      obtain ⟨d, hd, rfl⟩ := List.mem_map.mp hmem
      exact mem_dayRange.mp hd
    · intro r hr
      rw [hsort] at hr
      exact hmemid r hr

/-- Witness for C1: entity "A" with days 0 and 2 present. -/
theorem regularizer_one_row_per_day_witness :
    "A" ∈ entityIds (aggregate [⟨"A", 0, (10 : Int)⟩, ⟨"A", 2, 5⟩]) ∧
    ((∃ out lo hi,
      regularizeFullSpan [⟨"A", 0, (10 : Int)⟩, ⟨"A", 2, 5⟩] = Except.ok out ∧
      listMin ((entityRows (aggregate [⟨"A", 0, (10 : Int)⟩, ⟨"A", 2, 5⟩]) "A").map Row.ds) = some lo ∧
      listMax ((entityRows (aggregate [⟨"A", 0, (10 : Int)⟩, ⟨"A", 2, 5⟩]) "A").map Row.ds) = some hi ∧
      (out.map Row.key).Nodup ∧
      out.countP (fun r => r.uid == "A") = (hi - lo).toNat + 1 ∧
      (∀ d : Int, lo ≤ d → d ≤ hi → ∃ r ∈ out, r.uid = "A" ∧ r.ds = d) ∧
      (∀ r ∈ out, r.uid = "A" → lo ≤ r.ds ∧ r.ds ≤ hi) ∧
      (∀ r ∈ out, r.uid ∈ entityIds (aggregate [⟨"A", 0, (10 : Int)⟩, ⟨"A", 2, 5⟩]))) ∧
    (∃ out maxDay,
      preprocess_data [⟨"A", 0, (10 : Int)⟩, ⟨"A", 2, 5⟩] = Except.ok out ∧
      listMax ([⟨"A", 0, (10 : Int)⟩, ⟨"A", 2, 5⟩].map Row.ds) = some maxDay ∧
      (out.map Row.key).Nodup ∧
      out.countP (fun r => r.uid == "A") = (maxDay - (maxDay - 180)).toNat + 1 ∧
      (∀ d : Int, maxDay - 180 ≤ d → d ≤ maxDay →
        ∃ r ∈ out, r.uid = "A" ∧ r.ds = d) ∧
      (∀ r ∈ out, r.uid = "A" → maxDay - 180 ≤ r.ds ∧ r.ds ≤ maxDay) ∧
      (∀ r ∈ out, r.uid ∈ entityIds (aggregate [⟨"A", 0, (10 : Int)⟩, ⟨"A", 2, 5⟩])))) :=
  ⟨by decide, regularizer_one_row_per_day [⟨"A", 0, (10 : Int)⟩, ⟨"A", 2, 5⟩] "A" (by decide)⟩

/-- C2: in both regularizers, every output row's value is exactly the sum
of the raw values of its `(entity, day)` group — in particular a window
day with no raw observation for the entity is filled with exactly 0 — and
the spec's scenario holds: entity "A" with rows (D1,10), (D1,15), (D3,5)
and nothing on D2 regularizes to [(D1,25), (D2,0), (D3,5)]. -/
theorem regularizer_values {V : Type} [Zero V] [Add V]
    (raws : List (Row V)) (h : raws ≠ []) :
    (∃ out, regularizeFullSpan raws = Except.ok out ∧
      ∀ r ∈ out, r.y = rawSum raws r.uid r.ds ∧
        ((∀ x ∈ raws, ¬(x.uid = r.uid ∧ x.ds = r.ds)) → r.y = 0)) ∧
    (∃ out, preprocess_data raws = Except.ok out ∧
      ∀ r ∈ out, r.y = rawSum raws r.uid r.ds ∧
        ((∀ x ∈ raws, ¬(x.uid = r.uid ∧ x.ds = r.ds)) → r.y = 0)) ∧
    regularizeFullSpan [⟨"A", 0, (10 : ℚ)⟩, ⟨"A", 0, 15⟩, ⟨"A", 2, 5⟩] =
      Except.ok [⟨"A", 0, 25⟩, ⟨"A", 1, 0⟩, ⟨"A", 2, 5⟩] := by
  have hids := entityIds_pairwise (aggregate_pairwise raws)
  have hidne : entityIds (aggregate raws) ≠ [] := entityIds_aggregate_ne_nil h
  have hzero : ∀ r : Row V, r.y = rawSum raws r.uid r.ds →
      (∀ x ∈ raws, ¬(x.uid = r.uid ∧ x.ds = r.ds)) → r.y = 0 := by
    intro r hy hnone
    rw [hy, rawSum, List.filter_eq_nil_iff.mpr (fun x hx hb => by
      simp only [Bool.and_eq_true, beq_iff_eq] at hb
      exact hnone x hx hb)]
    rfl
  refine ⟨?_, ?_, ?_⟩
  · obtain ⟨hsort, _, _, _⟩ := mode_facts hids
      (fullSpanSeries_uid (aggregate raws)) (fullSpanSeries_pairwise (aggregate raws))
    refine ⟨_, regularizeFullSpan_ok raws hidne, ?_⟩
    intro r hr
    rw [hsort] at hr
    obtain ⟨w, hw, hrw⟩ := List.mem_flatMap.mp hr
    obtain ⟨lo, hi, hlo, hhi, _⟩ := span_bounds (entityRows_ne_nil hw)
    rw [fullSpanSeries_eq hlo hhi] at hrw
    obtain ⟨d, _, rfl⟩ := List.mem_map.mp hrw
    have hy : (⟨w, d, (aggLookup (aggregate raws) w d).getD 0⟩ : Row V).y =
        rawSum raws w d := aggLookup_aggregate raws w d
    exact ⟨hy, hzero _ hy⟩
  · obtain ⟨maxDay, hmax⟩ : ∃ m, listMax (raws.map Row.ds) = some m := by
      cases hmax : listMax (raws.map Row.ds) with
      | none =>
        rw [listMax_eq_none_iff] at hmax
        exact absurd (List.map_eq_nil_iff.mp hmax) h
      | some m => exact ⟨m, rfl⟩
    obtain ⟨hsort, _, _, _⟩ := mode_facts hids
      (fun u' => series_uid u' (dayRange (maxDay - 180) maxDay) _)
      (fun u' => series_pairwise u' (dayRange_pairwise _ _) _)
    refine ⟨_, preprocess_data_ok hmax hidne, ?_⟩
    intro r hr
    rw [hsort] at hr
    obtain ⟨w, hw, hrw⟩ := List.mem_flatMap.mp hr
    obtain ⟨d, _, rfl⟩ := List.mem_map.mp hrw
    have hy : (⟨w, d, (aggLookup (aggregate raws) w d).getD 0⟩ : Row V).y =
        rawSum raws w d := aggLookup_aggregate raws w d
    exact ⟨hy, hzero _ hy⟩
  · have hsc : regularizeFullSpan [⟨"A", 0, (10 : ℚ)⟩, ⟨"A", 0, 15⟩, ⟨"A", 2, 5⟩] =
        Except.ok [⟨"A", 0, 0 + 10 + 15⟩, ⟨"A", 1, 0⟩, ⟨"A", 2, 0 + 5⟩] := rfl
    rw [hsc]
    norm_num

/-- Witness for C2 at a one-row input. -/
theorem regularizer_values_witness :
    ([⟨"A", 0, (7 : Int)⟩] : List (Row Int)) ≠ [] ∧
    (∃ out, regularizeFullSpan ([⟨"A", 0, (7 : Int)⟩] : List (Row Int)) =
        Except.ok out ∧
      ∀ r ∈ out, r.y = rawSum ([⟨"A", 0, (7 : Int)⟩] : List (Row Int)) r.uid r.ds ∧
        ((∀ x ∈ ([⟨"A", 0, (7 : Int)⟩] : List (Row Int)),
          ¬(x.uid = r.uid ∧ x.ds = r.ds)) → r.y = 0)) :=
  ⟨by decide, (regularizer_values ([⟨"A", 0, (7 : Int)⟩] : List (Row Int)) (by decide)).1⟩

/-- C3: the fixed-window regularizer builds one shared daily calendar
`[global_max_day - 180, global_max_day]` from the global maximum day and
reindexes every entity onto exactly that calendar, regardless of the
entity's own span; entities with no raw observation inside the window get
an all-zero series over the full window. -/
theorem fixed_window_shared_calendar {V : Type} [Zero V] [Add V]
    (raws : List (Row V)) (maxDay : Int)
    (hmax : listMax (raws.map Row.ds) = some maxDay) (h : raws ≠ []) :
    ∃ out, preprocess_data raws = Except.ok out ∧
      (∀ u ∈ entityIds (aggregate raws),
        (entityRows out u).map Row.ds = dayRange (maxDay - 180) maxDay) ∧
      (∀ r ∈ out, r.uid ∈ entityIds (aggregate raws)) ∧
      (∀ u ∈ entityIds (aggregate raws),
        (∀ x ∈ raws, x.uid = u → ¬(maxDay - 180 ≤ x.ds ∧ x.ds ≤ maxDay)) →
        ∀ r ∈ entityRows out u, r.y = 0) := by
  have hids := entityIds_pairwise (aggregate_pairwise raws)
  have hidne : entityIds (aggregate raws) ≠ [] := entityIds_aggregate_ne_nil h
  obtain ⟨hsort, _, hfil, hmemid⟩ := mode_facts hids
    (fun u' => series_uid u' (dayRange (maxDay - 180) maxDay) _)
    (fun u' => series_pairwise u' (dayRange_pairwise _ _) _)
  refine ⟨_, preprocess_data_ok hmax hidne, ?_, ?_, ?_⟩
  · intro u hu
    rw [entityRows, hsort, hfil u hu, series_map_ds]
  · intro r hr
    rw [hsort] at hr
    exact hmemid r hr
  · intro u hu hnone r hr
    rw [entityRows, hsort, hfil u hu] at hr
    obtain ⟨d, hd, rfl⟩ := List.mem_map.mp hr
    have hy : (⟨u, d, (aggLookup (aggregate raws) u d).getD 0⟩ : Row V).y =
        rawSum raws u d := aggLookup_aggregate raws u d
    rw [hy, rawSum, List.filter_eq_nil_iff.mpr (fun x hx hb => by
      simp only [Bool.and_eq_true, beq_iff_eq] at hb
      exact hnone x hx hb.1 (hb.2 ▸ mem_dayRange.mp hd))]
    rfl

/-- Witness for C3 at a one-row input (global max day 0, window
[-180, 0]). -/
theorem fixed_window_shared_calendar_witness :
    listMax (([⟨"A", 0, (10 : Int)⟩] : List (Row Int)).map Row.ds) = some 0 ∧
    (∃ out, preprocess_data [⟨"A", 0, (10 : Int)⟩] = Except.ok out ∧
      (∀ u ∈ entityIds (aggregate [⟨"A", 0, (10 : Int)⟩]),
        (entityRows out u).map Row.ds = dayRange (0 - 180) 0) ∧
      (∀ r ∈ out, r.uid ∈ entityIds (aggregate [⟨"A", 0, (10 : Int)⟩])) ∧
      (∀ u ∈ entityIds (aggregate [⟨"A", 0, (10 : Int)⟩]),
        (∀ x ∈ ([⟨"A", 0, (10 : Int)⟩] : List (Row Int)), x.uid = u →
          ¬(0 - 180 ≤ x.ds ∧ x.ds ≤ 0)) →
        ∀ r ∈ entityRows out u, r.y = 0)) :=
  ⟨by decide, fixed_window_shared_calendar [⟨"A", 0, (10 : Int)⟩] 0 (by decide) (by decide)⟩

theorem dayRange_ne_nil {lo hi : Int} (h : lo ≤ hi) : dayRange lo hi ≠ [] := by
  intro hnil
  have hlen := congrArg List.length hnil
  rw [length_dayRange] at hlen
  simp only [List.length_nil] at hlen
  omega

/-- C8: aggregation followed by regularization is idempotent in both
modes — on any nonempty raw input each pipeline succeeds, and feeding its
output back through the same pipeline reproduces that output unchanged
(so two runs on the same raw input agree). -/
theorem pipeline_idempotent {V : Type} [AddMonoid V]
    (raws : List (Row V)) (h : raws ≠ []) :
    (∃ out, regularizeFullSpan raws = Except.ok out ∧
      regularizeFullSpan out = Except.ok out) ∧
    (∃ out, preprocess_data raws = Except.ok out ∧
      preprocess_data out = Except.ok out) := by
  have hids := entityIds_pairwise (aggregate_pairwise raws)
  have hidne : entityIds (aggregate raws) ≠ [] := entityIds_aggregate_ne_nil h
  have hndids : (entityIds (aggregate raws)).Nodup := entityIds_nodup _
  constructor
  · -- full-span mode
    obtain ⟨hsort, hndk, hfil, _⟩ := mode_facts hids
      (fullSpanSeries_uid (aggregate raws)) (fullSpanSeries_pairwise (aggregate raws))
    have hpairL : ((entityIds (aggregate raws)).flatMap
        (fun u => fullSpanSeries (aggregate raws) u)).Pairwise rowLt :=
      flatMap_pairwise hids (fullSpanSeries_uid (aggregate raws))
        (fullSpanSeries_pairwise (aggregate raws))
    set L := (entityIds (aggregate raws)).flatMap
      (fun u => fullSpanSeries (aggregate raws) u) with hL
    have hok1 : regularizeFullSpan raws = Except.ok L := by
      rw [regularizeFullSpan_ok raws hidne, ← hL, hsort]
    have haggL : aggregate L = L := aggregate_eq_self hpairL
    have hids2 : entityIds L = entityIds (aggregate raws) := by
      rw [entityIds, hL]
      exact dedup_blocks (fullSpanSeries_uid (aggregate raws)) hndids
        (fun u hu => fullSpanSeries_ne_nil hu)
    have hser : ∀ u ∈ entityIds (aggregate raws),
        fullSpanSeries L u = fullSpanSeries (aggregate raws) u := by
      intro u hu
      obtain ⟨lo, hi, hlo, hhi, hle⟩ := span_bounds (entityRows_ne_nil hu)
      have hgu : fullSpanSeries (aggregate raws) u = (dayRange lo hi).map
          (fun d => ⟨u, d, (aggLookup (aggregate raws) u d).getD 0⟩) :=
        fullSpanSeries_eq hlo hhi
      have hrows : entityRows L u = fullSpanSeries (aggregate raws) u := hfil u hu
      have hds : (entityRows L u).map Row.ds = dayRange lo hi := by
        rw [hrows, hgu, series_map_ds]
      have hlo2 : listMin ((entityRows L u).map Row.ds) = some lo := by
        rw [hds]
        exact listMin_dayRange hle
      have hhi2 : listMax ((entityRows L u).map Row.ds) = some hi := by
        rw [hds]
        exact listMax_dayRange hle
      rw [fullSpanSeries_eq hlo2 hhi2, hgu]
      refine List.map_congr_left ?_
      intro d hd
      have hmem : (⟨u, d, (aggLookup (aggregate raws) u d).getD 0⟩ : Row V) ∈ L :=
        List.mem_flatMap.mpr ⟨u, hu, by
          rw [hgu]
          exact List.mem_map_of_mem _ hd⟩
      have h2 : aggLookup L u d =
          some ((aggLookup (aggregate raws) u d).getD 0) :=
        aggLookup_of_mem hndk hmem
      rw [h2]
      rfl
    have hflat : (entityIds (aggregate raws)).flatMap
        (fun u => fullSpanSeries L u) = L := by
      rw [List.flatMap_def, List.map_congr_left hser, ← List.flatMap_def]
    have hok2 : regularizeFullSpan L = Except.ok L := by
      rw [regularizeFullSpan_ok L (by rw [haggL, hids2]; exact hidne), haggL,
        hids2, hflat, sortRows_eq_self hpairL]
    exact ⟨L, hok1, hok2⟩
  · -- fixed-window mode
    obtain ⟨maxDay, hmax⟩ : ∃ m, listMax (raws.map Row.ds) = some m := by
      cases hmax : listMax (raws.map Row.ds) with
      | none =>
        rw [listMax_eq_none_iff] at hmax
        exact absurd (List.map_eq_nil_iff.mp hmax) h
      | some m => exact ⟨m, rfl⟩
    obtain ⟨hsort, hndk, hfil, _⟩ := mode_facts hids
      (fun u' => series_uid u' (dayRange (maxDay - 180) maxDay) _)
      (fun u' => series_pairwise u' (dayRange_pairwise _ _) _)
    have hpairL : ((entityIds (aggregate raws)).flatMap (fun u =>
        (dayRange (maxDay - 180) maxDay).map
          (fun d => ⟨u, d, (aggLookup (aggregate raws) u d).getD 0⟩))).Pairwise rowLt :=
      flatMap_pairwise hids
        (fun u' => series_uid u' (dayRange (maxDay - 180) maxDay) _)
        (fun u' => series_pairwise u' (dayRange_pairwise _ _) _)
    set L := (entityIds (aggregate raws)).flatMap (fun u =>
      (dayRange (maxDay - 180) maxDay).map
        (fun d => (⟨u, d, (aggLookup (aggregate raws) u d).getD 0⟩ : Row V))) with hL
    have hok1 : preprocess_data raws = Except.ok L := by
      rw [preprocess_data_ok hmax hidne, ← hL, hsort]
    have haggL : aggregate L = L := aggregate_eq_self hpairL
    have hids2 : entityIds L = entityIds (aggregate raws) := by
      rw [entityIds, hL]
      refine dedup_blocks (fun u' => series_uid u' _ _) hndids (fun u hu => ?_)
      intro hnil
      exact dayRange_ne_nil (by omega) (List.map_eq_nil_iff.mp hnil)
    have hmax2 : listMax (L.map Row.ds) = some maxDay := by
      rw [listMax_eq_some_iff]
      constructor
      · obtain ⟨u0, hu0⟩ := List.exists_mem_of_ne_nil _ hidne
        have hrow : (⟨u0, maxDay,
            (aggLookup (aggregate raws) u0 maxDay).getD 0⟩ : Row V) ∈ L :=
          List.mem_flatMap.mpr ⟨u0, hu0,
            List.mem_map_of_mem _ (mem_dayRange.mpr ⟨by omega, le_refl _⟩)⟩
        exact List.mem_map.mpr ⟨_, hrow, rfl⟩
      · intro x hx
        obtain ⟨r, hr, rfl⟩ := List.mem_map.mp hx
        obtain ⟨w, _, hrw⟩ := List.mem_flatMap.mp hr
        obtain ⟨d, hd, rfl⟩ := List.mem_map.mp hrw
        exact (mem_dayRange.mp hd).2
    have hser : ∀ u ∈ entityIds (aggregate raws),
        (dayRange (maxDay - 180) maxDay).map
          (fun d => (⟨u, d, (aggLookup L u d).getD 0⟩ : Row V)) =
        (dayRange (maxDay - 180) maxDay).map
          (fun d => ⟨u, d, (aggLookup (aggregate raws) u d).getD 0⟩) := by
      intro u hu
      refine List.map_congr_left ?_
      intro d hd
      have hmem : (⟨u, d, (aggLookup (aggregate raws) u d).getD 0⟩ : Row V) ∈ L :=
        List.mem_flatMap.mpr ⟨u, hu, List.mem_map_of_mem _ hd⟩
      have h2 : aggLookup L u d =
          some ((aggLookup (aggregate raws) u d).getD 0) :=
        aggLookup_of_mem hndk hmem
      rw [h2]
      rfl
    have hflat : (entityIds (aggregate raws)).flatMap (fun u =>
        (dayRange (maxDay - 180) maxDay).map
          (fun d => (⟨u, d, (aggLookup L u d).getD 0⟩ : Row V))) = L := by
      rw [List.flatMap_def, List.map_congr_left hser, ← List.flatMap_def]
    have hok2 : preprocess_data L = Except.ok L := by
      rw [preprocess_data_ok hmax2 (by rw [haggL, hids2]; exact hidne), haggL,
        hids2, hflat, sortRows_eq_self hpairL]
    exact ⟨L, hok1, hok2⟩

/-- Witness for C8 at a one-row input. -/
theorem pipeline_idempotent_witness :
    ([⟨"A", 0, (3 : Int)⟩] : List (Row Int)) ≠ [] ∧
    (∃ out, regularizeFullSpan ([⟨"A", 0, (3 : Int)⟩] : List (Row Int)) =
        Except.ok out ∧ regularizeFullSpan out = Except.ok out) ∧
    (∃ out, preprocess_data ([⟨"A", 0, (3 : Int)⟩] : List (Row Int)) =
        Except.ok out ∧ preprocess_data out = Except.ok out) :=
  ⟨by decide, pipeline_idempotent ([⟨"A", 0, (3 : Int)⟩] : List (Row Int)) (by decide)⟩

/-- Witness for C10 on the line `" A = B=C \n"`: split at the first `'='`,
key `A`, value `B=C` (keeping its inner `'='`). -/
theorem load_env_spec_witness :
    (" A = B=C \n".data.contains '=' = true) ∧
    processLine [] " A = B=C \n".data =
      envSet [] (pstrip (splitEq1 " A = B=C \n".data).1)
        (pstrip (splitEq1 " A = B=C \n".data).2) ∧
    pstrip (splitEq1 " A = B=C \n".data).1 = "A".data ∧
    pstrip (splitEq1 " A = B=C \n".data).2 = "B=C".data :=
  ⟨by decide, load_env_spec.2.1 [] " A = B=C \n".data (by decide), by decide, by decide⟩

end Anomaly
